import Mathlib

/-!
Verification of the HTML tree-construction core of the saba browser
(`saba_core/src/renderer/html/parser.rs`), shallowly embedded in Lean.

The tokenizer and the DOM helpers (`insert_element`, `insert_char`,
`pop_until`, `pop_current_node`, `contain_in_stack`, `ElementKind`) live in
repository files that are not part of the provided sources; they are
modelled from the specification, as marked on each definition.  The driver
loop `construction_tree` is translated branch by branch from the source.
-/

set_option maxRecDepth 4000

/-- Supported element kinds.  Modelled from the spec: the DOM module's
`ElementKind` enum over supported tags (`Html`, `Head`, `Body`, `Style`,
`Script`, `P`, `H1`, `H2`, `A`). -/
inductive ElementKind where
  | html
  | head
  | body
  | style
  | script
  | p
  | h1
  | h2
  | a
deriving DecidableEq, Repr

/-- Modelled from the spec: `ElementKind.from_name(name) → Result<kind, UnknownTag>`
maps a lowercased tag name to the enum; unknown tags fail (here `none`). -/
def ElementKind.from_str (s : String) : Option ElementKind :=
  if s = "html" then some .html
  else if s = "head" then some .head
  else if s = "body" then some .body
  else if s = "style" then some .style
  else if s = "script" then some .script
  else if s = "p" then some .p
  else if s = "h1" then some .h1
  else if s = "h2" then some .h2
  else if s = "a" then some .a
  else none

/-- Tokens produced by the tokenizer.  Modelled from the spec: kinds
{StartTag, EndTag, Char, Eof}; a StartTag carries the lowercased tag name,
a self-closing flag and the attribute list. -/
inductive HtmlToken where
  | char (c : Char)
  | startTag (tag : String) (self_closing : Bool) (attributes : List (String × String))
  | endTag (tag : String)
  | eof
deriving DecidableEq

/-- Insertion modes as dispatched by the driver loop of
`construction_tree` (parser.rs lines 48–346): the match arms cover nine
modes, and the loop assigns `BeforeHead` (lines 76, 87) and `Text`
(line 135) to `self.mode`. -/
inductive InsertionMode where
  | Initial
  | BeforeHtml
  | BeforeHead
  | InHead
  | AfterHead
  | InBody
  | Text
  | AfterBody
  | AfterAfterBody
deriving DecidableEq

/-- The variant list of the source's `enum InsertionMode` declaration
(parser.rs lines 11–20), verbatim: seven variants, omitting `BeforeHead`
and `Text` even though the driver loop assigns and matches on both. -/
def declaredInsertionModes : List InsertionMode :=
  [.Initial, .BeforeHtml, .InHead, .AfterHead, .InBody, .AfterBody, .AfterAfterBody]

/-- DOM nodes reachable from the Document: element nodes with kind,
attributes and ordered children, and text nodes. -/
inductive DomNode where
  | element (kind : ElementKind) (attributes : List (String × String)) (children : List DomNode)
  | text (s : String)

/-- An entry of the stack of open elements, kept zipper style: the element's
kind and attributes together with the fully built children accumulated so
far.  When the element is popped it is closed into its parent's child list,
which realises "attached immediately, children appended in order". -/
structure OpenElt where
  kind : ElementKind
  attributes : List (String × String)
  children : List DomNode

/-- The Window owns the Document; the Document's children are the only
state it carries here. -/
structure Window where
  document_children : List DomNode

/-- Parser state of `HtmlParser` (parser.rs lines 22–31): the window's
document content built so far, the insertion mode, the saved
`original_insertion_mode`, the stack of open elements (top first, mirroring
the source's `Vec` accessed from its end) and the remaining tokenizer
output, modelled as the list of tokens `t.next()` will still yield. -/
structure HtmlParser where
  doc_children : List DomNode
  mode : InsertionMode
  original_insertion_mode : InsertionMode
  stack_of_open_elements : List OpenElt
  t : List HtmlToken

/-- Result of one dispatch of the driver loop: return the window, continue
with a new state, or hit a failing `assert!`/`expect` (a Rust panic). -/
inductive StepResult where
  | ret (w : Window)
  | cont (p : HtmlParser)
  | panic

/-- Close a finished node onto the enclosing context: append it to the
children of the next open element, or to the Document when the stack below
is empty. -/
def closeOnto (node : DomNode) : List OpenElt → List DomNode → List OpenElt × List DomNode
  | [], doc => ([], doc ++ [node])
  | f :: r, doc => ({ f with children := f.children ++ [node] } :: r, doc)

/-- View an open element as the DOM node it denotes right now. -/
def elementOf (e : OpenElt) : DomNode :=
  .element e.kind e.attributes e.children

/-- Close every open element, yielding the final children of the Document;
the fuel argument is the stack length. -/
def closeAllFuel : Nat → List OpenElt → List DomNode → List DomNode
  | 0, _, doc => doc
  | _ + 1, [], doc => doc
  | n + 1, e :: rest, doc =>
    let q := closeOnto (elementOf e) rest doc
    closeAllFuel n q.1 q.2

/-- The Window as the source would return it: the Document with all
currently open elements attached. -/
def windowOf (p : HtmlParser) : Window :=
  ⟨closeAllFuel p.stack_of_open_elements.length p.stack_of_open_elements p.doc_children⟩

/-- Modelled from the spec: `contain_in_stack(kind)` — linear scan of the
stack of open elements. -/
def contain_in_stack (p : HtmlParser) (k : ElementKind) : Bool :=
  p.stack_of_open_elements.any (fun e => e.kind = k)

/-- Pop open elements until (and including) the first of kind `k`; the fuel
argument is the stack length. -/
def popUntilFuel (k : ElementKind) : Nat → List OpenElt → List DomNode → List OpenElt × List DomNode
  | 0, st, doc => (st, doc)
  | _ + 1, [], doc => ([], doc)
  | n + 1, e :: rest, doc =>
    let q := closeOnto (elementOf e) rest doc
    if e.kind = k then q else popUntilFuel k n q.1 q.2

/-- Modelled from the spec: `pop_until(kind)` — pop elements off the stack
until and including the first element of `kind`; if none exists the stack
is unchanged (no-op). -/
def pop_until (p : HtmlParser) (k : ElementKind) : HtmlParser :=
  if contain_in_stack p k then
    let q := popUntilFuel k p.stack_of_open_elements.length p.stack_of_open_elements p.doc_children
    { p with stack_of_open_elements := q.1, doc_children := q.2 }
  else p

/-- Modelled from the spec: `pop_current_node(kind)` — if the top of the
stack has that kind, pop it (closing it into its parent) and return true,
else return false. -/
def pop_current_node (p : HtmlParser) (k : ElementKind) : HtmlParser × Bool :=
  match p.stack_of_open_elements with
  | [] => (p, false)
  | e :: rest =>
    if e.kind = k then
      let q := closeOnto (elementOf e) rest p.doc_children
      ({ p with stack_of_open_elements := q.1, doc_children := q.2 }, true)
    else (p, false)

/-- Modelled from the spec: insert_element creates an element for the tag
name, appends it under the current node (the Document when the stack is
empty) and pushes it onto the stack of open elements.  The driver only
calls it with names whose ElementKind lookup succeeds; on an unknown name
it leaves the state unchanged. -/
def insert_element (p : HtmlParser) (tag : String) (attributes : List (String × String)) : HtmlParser :=
  match ElementKind.from_str tag with
  | some k => { p with stack_of_open_elements := ⟨k, attributes, []⟩ :: p.stack_of_open_elements }
  | none => p

/-- Text insertion rule from the spec: if the last child is a Text node,
extend it by the new character, else append a fresh Text child. -/
def pushChar (c : Char) : List DomNode → List DomNode
  | [] => [.text (String.singleton c)]
  | [.text s] => [.text (s.push c)]
  | x :: rest => x :: pushChar c rest

/-- Modelled from the spec: insert_char appends a character to the current
node under the text insertion rule; with no current node it does nothing. -/
def insert_char (p : HtmlParser) (c : Char) : HtmlParser :=
  match p.stack_of_open_elements with
  | [] => p
  | e :: rest =>
    { p with stack_of_open_elements := { e with children := pushChar c e.children } :: rest }

/-- One dispatch of the `Initial` arm (parser.rs lines 49–60): any Char
token is consumed and ignored; anything else switches to `BeforeHtml` and
is reprocessed. -/
def stepInitial (p : HtmlParser) (tok : HtmlToken) (rest : List HtmlToken) : StepResult :=
  match tok with
  | .char _ => .cont { p with t := rest }
  | _ => .cont { p with mode := .BeforeHtml }

/-- One dispatch of the `BeforeHtml` arm (parser.rs lines 61–89). -/
def stepBeforeHtml (p : HtmlParser) (tok : HtmlToken) (rest : List HtmlToken) : StepResult :=
  match tok with
  | .char c =>
    if c = ' ' ∨ c = '\n' then .cont { p with t := rest }
    else .cont { insert_element p "html" [] with mode := .BeforeHead }
  | .startTag tag _ attrs =>
    if tag = "html" then
      .cont { insert_element p tag attrs with mode := .BeforeHead, t := rest }
    else .cont { insert_element p "html" [] with mode := .BeforeHead }
  | .endTag _ => .cont { insert_element p "html" [] with mode := .BeforeHead }
  | .eof => .ret (windowOf p)

/-- One dispatch of the `BeforeHead` arm (parser.rs lines 90–118). -/
def stepBeforeHead (p : HtmlParser) (tok : HtmlToken) (rest : List HtmlToken) : StepResult :=
  match tok with
  | .char c =>
    if c = ' ' ∨ c = '\n' then .cont { p with t := rest }
    else .cont { insert_element p "head" [] with mode := .InHead }
  | .startTag tag _ attrs =>
    if tag = "head" then
      .cont { insert_element p tag attrs with mode := .InHead, t := rest }
    else .cont { insert_element p "head" [] with mode := .InHead }
  | .endTag _ => .cont { insert_element p "head" [] with mode := .InHead }
  | .eof => .ret (windowOf p)

/-- One dispatch of the `InHead` arm (parser.rs lines 119–168): style and
script enter `Text` mode saving the current mode; a `body` start tag or any
start tag with a known ElementKind pops the head and reprocesses in
`AfterHead`; an unknown start tag, a stray end tag or a non-whitespace
character falls to the trailing advance (line 166). -/
def stepInHead (p : HtmlParser) (tok : HtmlToken) (rest : List HtmlToken) : StepResult :=
  match tok with
  | .char c =>
    if c = ' ' ∨ c = '\n' then .cont { p with t := rest }
    else .cont { p with t := rest }
  | .startTag tag _ attrs =>
    if tag = "style" ∨ tag = "script" then
      let p1 := insert_element p tag attrs
      .cont { p1 with original_insertion_mode := p1.mode, mode := .Text, t := rest }
    else if tag = "body" then
      .cont { pop_until p .head with mode := .AfterHead }
    else
      match ElementKind.from_str tag with
      | some _ => .cont { pop_until p .head with mode := .AfterHead }
      | none => .cont { p with t := rest }
  | .endTag tag =>
    if tag = "head" then
      .cont { pop_until p .head with mode := .AfterHead, t := rest }
    else .cont { p with t := rest }
  | .eof => .ret (windowOf p)

/-- One dispatch of the `AfterHead` arm (parser.rs lines 169–197). -/
def stepAfterHead (p : HtmlParser) (tok : HtmlToken) (rest : List HtmlToken) : StepResult :=
  match tok with
  | .char c =>
    if c = ' ' ∨ c = '\n' then .cont { p with t := rest }
    else .cont { insert_element p "body" [] with mode := .InBody }
  | .startTag tag _ attrs =>
    if tag = "body" then
      .cont { insert_element p tag attrs with mode := .InBody, t := rest }
    else .cont { insert_element p "body" [] with mode := .InBody }
  | .endTag _ => .cont { insert_element p "body" [] with mode := .InBody }
  | .eof => .ret (windowOf p)

/-- One dispatch of the `InBody` arm (parser.rs lines 198–280).  The
`html` end tag mirrors lines 236–244: if the current node is Body it is
popped, the mode becomes `AfterBody` and `assert!(pop_current_node(Html))`
must succeed, modelled by `.panic` on failure; the recognised end tags use
`ElementKind::from_str(tag).expect(..)`, modelled by `.panic` on `none`. -/
def stepInBody (p : HtmlParser) (tok : HtmlToken) (rest : List HtmlToken) : StepResult :=
  match tok with
  | .startTag tag _ attrs =>
    if tag = "p" then .cont { insert_element p tag attrs with t := rest }
    else if tag = "h1" ∨ tag = "h2" then .cont { insert_element p tag attrs with t := rest }
    else if tag = "a" then .cont { insert_element p tag attrs with t := rest }
    else .cont { p with t := rest }
  | .endTag tag =>
    if tag = "body" then
      if contain_in_stack { p with mode := .AfterBody, t := rest } .body then
        .cont (pop_until { p with mode := .AfterBody, t := rest } .body)
      else .cont { p with mode := .AfterBody, t := rest }
    else if tag = "html" then
      if (pop_current_node p .body).2 then
        if (pop_current_node { (pop_current_node p .body).1 with mode := .AfterBody } .html).2 then
          .cont (pop_current_node { (pop_current_node p .body).1 with mode := .AfterBody } .html).1
        else .panic
      else .cont { p with t := rest }
    else if tag = "p" ∨ tag = "h1" ∨ tag = "h2" ∨ tag = "a" then
      match ElementKind.from_str tag with
      | some k => .cont (pop_until { p with t := rest } k)
      | none => .panic
    else .cont { p with t := rest }
  | .char c => .cont { insert_char p c with t := rest }
  | .eof => .ret (windowOf p)

/-- One dispatch of the `Text` arm (parser.rs lines 281–309). -/
def stepText (p : HtmlParser) (tok : HtmlToken) (rest : List HtmlToken) : StepResult :=
  match tok with
  | .char c => .cont { insert_char p c with t := rest }
  | .endTag tag =>
    if tag = "style" then
      .cont { pop_until p .style with mode := p.original_insertion_mode, t := rest }
    else if tag = "script" then
      .cont { pop_until p .script with mode := p.original_insertion_mode, t := rest }
    else .cont { p with mode := p.original_insertion_mode }
  | .startTag _ _ _ => .cont { p with mode := p.original_insertion_mode }
  | .eof => .ret (windowOf p)

/-- One dispatch of the `AfterBody` arm (parser.rs lines 310–330):
characters are consumed and discarded; an `html` end tag advances to
`AfterAfterBody`; anything else falls back to `InBody` reprocessing. -/
def stepAfterBody (p : HtmlParser) (tok : HtmlToken) (rest : List HtmlToken) : StepResult :=
  match tok with
  | .char _ => .cont { p with t := rest }
  | .endTag tag =>
    if tag = "html" then .cont { p with mode := .AfterAfterBody, t := rest }
    else .cont { p with mode := .InBody }
  | .startTag _ _ _ => .cont { p with mode := .InBody }
  | .eof => .ret (windowOf p)

/-- One dispatch of the `AfterAfterBody` arm (parser.rs lines 331–345). -/
def stepAfterAfterBody (p : HtmlParser) (tok : HtmlToken) (rest : List HtmlToken) : StepResult :=
  match tok with
  | .char _ => .cont { p with t := rest }
  | .eof => .ret (windowOf p)
  | _ => .cont { p with mode := .InBody }

/-- One iteration of the driver loop of `construction_tree`: when the
tokenizer is exhausted the loop exits and the window is returned
(parser.rs lines 47 and 349); otherwise the current token is dispatched on
the insertion mode. -/
def step (p : HtmlParser) : StepResult :=
  match p.t with
  | [] => .ret (windowOf p)
  | tok :: rest =>
    match p.mode with
    | .Initial => stepInitial p tok rest
    | .BeforeHtml => stepBeforeHtml p tok rest
    | .BeforeHead => stepBeforeHead p tok rest
    | .InHead => stepInHead p tok rest
    | .AfterHead => stepAfterHead p tok rest
    | .InBody => stepInBody p tok rest
    | .Text => stepText p tok rest
    | .AfterBody => stepAfterBody p tok rest
    | .AfterAfterBody => stepAfterAfterBody p tok rest

/-- Iterate the driver loop with explicit fuel, `none` on fuel exhaustion
or on a panic. -/
def run : Nat → HtmlParser → Option Window
  | 0, _ => none
  | n + 1, p =>
    match step p with
    | .ret w => some w
    | .cont p' => run n p'
    | .panic => none

/-- Iterate the step function a given number of times, stopping early when
the loop returns or panics. -/
def stepN : Nat → HtmlParser → HtmlParser
  | 0, p => p
  | n + 1, p =>
    match step p with
    | .cont p' => stepN n p'
    | _ => p

/-- Initial parser state of `HtmlParser::new` (parser.rs lines 34–42):
empty window, mode `Initial`, `original_insertion_mode` `Initial`, empty
stack, the whole token stream ahead. -/
def initState (ts : List HtmlToken) : HtmlParser :=
  { doc_children := []
    mode := .Initial
    original_insertion_mode := .Initial
    stack_of_open_elements := []
    t := ts }

/-- A parser state is reachable when some run of the driver from some
token stream produces it. -/
def Reachable (p : HtmlParser) : Prop :=
  ∃ ts n, stepN n (initState ts) = p

/-- Fuel sufficient for any run of the driver on the given stream. -/
def fuelBound (ts : List HtmlToken) : Nat :=
  9 * ts.length + 9

/-- The whole of `construction_tree` (parser.rs lines 44–350) on a token
stream: iterate the driver loop to completion. -/
def construction_tree (ts : List HtmlToken) : Option Window :=
  run (fuelBound ts) (initState ts)

/-- The kind of the current node (top of the stack of open elements). -/
def topKind (p : HtmlParser) : Option ElementKind :=
  (p.stack_of_open_elements.map (fun e => e.kind)).head?

/-- Insertion mode of the state a dispatch continues with, if any. -/
def resultMode : StepResult → Option InsertionMode
  | .cont p => some p.mode
  | _ => none

/-- Remaining token stream of the state a dispatch continues with. -/
def resultTokens : StepResult → Option (List HtmlToken)
  | .cont p => some p.t
  | _ => none

/-- Kinds of the open elements, top first. -/
def stackKinds (p : HtmlParser) : List ElementKind :=
  p.stack_of_open_elements.map (fun e => e.kind)

/-- Kinds the `InHead`/`Text` modes may push above the head element. -/
def isRawKind : ElementKind → Bool
  | .style => true
  | .script => true
  | _ => false

/-- Kinds the `InBody` mode may push above the body element. -/
def isContentKind : ElementKind → Bool
  | .p => true
  | .h1 => true
  | .h2 => true
  | .a => true
  | _ => false

/-- Stack shape while the head element is open: raw-text elements above a
head element sitting directly on the html element. -/
def headStackOk : List ElementKind → Bool
  | [] => false
  | k :: r => if isRawKind k then headStackOk r else k = .head && r = [.html]

/-- Stack shape from `InBody` onwards: content elements above either a
body element directly on the html element, a bare html element, or an
empty stack. -/
def bodyStackOk : List ElementKind → Bool
  | [] => true
  | k :: r =>
    if isContentKind k then bodyStackOk r
    else (k = .body && r = [.html]) || (k = .html && r = [])

/-- Stack shape admissible in each insertion mode. -/
def stackOk (m : InsertionMode) (ks : List ElementKind) : Bool :=
  match m with
  | .Initial => ks = []
  | .BeforeHtml => ks = []
  | .BeforeHead => ks = [.html]
  | .InHead => headStackOk ks
  | .Text => headStackOk ks
  | .AfterHead => ks = [.html]
  | .InBody => bodyStackOk ks
  | .AfterBody => bodyStackOk ks
  | .AfterAfterBody => bodyStackOk ks

/-- Admissible `original_insertion_mode` values: it starts as `Initial` and
is only ever assigned in the `InHead` arm, so in `Text` mode it is
`InHead`. -/
def originalOk (p : HtmlParser) : Bool :=
  (p.original_insertion_mode = .Initial || p.original_insertion_mode = .InHead) &&
  (!(p.mode = .Text) || p.original_insertion_mode = .InHead)

/-- Invariant of all reachable parser states. -/
def ReachInv (p : HtmlParser) : Bool :=
  originalOk p && stackOk p.mode (stackKinds p)

/-- Whether the current token is the `html` end tag (the one token on which
`InBody` re-dispatches into `AfterBody`). -/
def isEndHtml : HtmlToken → Bool
  | .endTag tag => tag = "html"
  | _ => false

/-- Rank of a mode under the current token: every dispatch that does not
consume its token strictly decreases this rank. -/
def modeRank (m : InsertionMode) (endHtml : Bool) : Nat :=
  match m with
  | .Initial => 8
  | .BeforeHtml => 7
  | .BeforeHead => 6
  | .Text => 5
  | .InHead => 4
  | .AfterHead => 3
  | .AfterAfterBody => 2
  | .InBody => if endHtml then 1 else 0
  | .AfterBody => if endHtml then 0 else 1

/-- Whether the head of the remaining stream is the `html` end tag. -/
def headEndHtml : List HtmlToken → Bool
  | tok :: _ => isEndHtml tok
  | [] => false

/-- Termination measure of the driver loop. -/
def mu (p : HtmlParser) : Nat :=
  9 * p.t.length + modeRank p.mode (headEndHtml p.t)

/-- Contract of a single dispatch from an invariant state: either the loop
returns, or it continues in an invariant state with a smaller measure,
having consumed its token or changed the insertion mode. -/
def StepGood (p : HtmlParser) (r : StepResult) : Prop :=
  (∃ w, r = .ret w) ∨
  (∃ p', r = .cont p' ∧ ReachInv p' = true ∧ mu p' < mu p ∧
    (p'.t.length < p.t.length ∨ (p'.t = p.t ∧ p'.mode ≠ p.mode)))

/-- Kind-level image of `popUntilFuel`. -/
def popKindsFuel (k : ElementKind) : Nat → List ElementKind → List ElementKind
  | 0, ks => ks
  | _ + 1, [] => []
  | n + 1, x :: r => if x = k then r else popKindsFuel k n r

theorem closeOnto_kinds (node : DomNode) (st : List OpenElt) (doc : List DomNode) :
    ((closeOnto node st doc).1).map (fun e => e.kind) = st.map (fun e => e.kind) := by
  cases st <;> simp [closeOnto]

theorem popUntilFuel_kinds (k : ElementKind) :
    ∀ (n : Nat) (st : List OpenElt) (doc : List DomNode),
      ((popUntilFuel k n st doc).1).map (fun e => e.kind)
        = popKindsFuel k n (st.map (fun e => e.kind)) := by
  intro n
  induction n with
  | zero => intro st doc; simp [popUntilFuel, popKindsFuel]
  | succ n ih =>
    intro st doc
    cases st with
    | nil => simp [popUntilFuel, popKindsFuel]
    | cons e rest =>
      simp only [popUntilFuel, popKindsFuel, List.map_cons]
      by_cases h : e.kind = k
      · simp [h, closeOnto_kinds]
      · simp only [h, if_false]
        rw [ih, closeOnto_kinds]

@[simp] theorem pop_until_mode (p : HtmlParser) (k : ElementKind) :
    (pop_until p k).mode = p.mode := by
  unfold pop_until; split <;> rfl

@[simp] theorem pop_until_original (p : HtmlParser) (k : ElementKind) :
    (pop_until p k).original_insertion_mode = p.original_insertion_mode := by
  unfold pop_until; split <;> rfl

@[simp] theorem pop_until_t (p : HtmlParser) (k : ElementKind) :
    (pop_until p k).t = p.t := by
  unfold pop_until; split <;> rfl

@[simp] theorem insert_element_mode (p : HtmlParser) (tag : String) (attrs : List (String × String)) :
    (insert_element p tag attrs).mode = p.mode := by
  unfold insert_element; split <;> rfl

@[simp] theorem insert_element_original (p : HtmlParser) (tag : String) (attrs : List (String × String)) :
    (insert_element p tag attrs).original_insertion_mode = p.original_insertion_mode := by
  unfold insert_element; split <;> rfl

@[simp] theorem insert_element_t (p : HtmlParser) (tag : String) (attrs : List (String × String)) :
    (insert_element p tag attrs).t = p.t := by
  unfold insert_element; split <;> rfl

@[simp] theorem insert_char_mode (p : HtmlParser) (c : Char) :
    (insert_char p c).mode = p.mode := by
  unfold insert_char; split <;> rfl

@[simp] theorem insert_char_original (p : HtmlParser) (c : Char) :
    (insert_char p c).original_insertion_mode = p.original_insertion_mode := by
  unfold insert_char; split <;> rfl

@[simp] theorem insert_char_t (p : HtmlParser) (c : Char) :
    (insert_char p c).t = p.t := by
  unfold insert_char; split <;> rfl

@[simp] theorem insert_char_kinds (p : HtmlParser) (c : Char) :
    stackKinds (insert_char p c) = stackKinds p := by
  unfold insert_char stackKinds
  match h : p.stack_of_open_elements with
  | [] => simp [h]
  | e :: rest => simp

@[simp] theorem pop_current_node_mode (p : HtmlParser) (k : ElementKind) :
    ((pop_current_node p k).1).mode = p.mode := by
  unfold pop_current_node
  match p.stack_of_open_elements with
  | [] => rfl
  | e :: rest => dsimp only; split <;> rfl

@[simp] theorem pop_current_node_original (p : HtmlParser) (k : ElementKind) :
    ((pop_current_node p k).1).original_insertion_mode = p.original_insertion_mode := by
  unfold pop_current_node
  match p.stack_of_open_elements with
  | [] => rfl
  | e :: rest => dsimp only; split <;> rfl

@[simp] theorem pop_current_node_t (p : HtmlParser) (k : ElementKind) :
    ((pop_current_node p k).1).t = p.t := by
  unfold pop_current_node
  match p.stack_of_open_elements with
  | [] => rfl
  | e :: rest => dsimp only; split <;> rfl

theorem any_kind_map (st : List OpenElt) (k : ElementKind) :
    st.any (fun e => e.kind = k) = (st.map (fun e => e.kind)).any (fun x => x = k) := by
  induction st <;> simp_all

theorem contain_in_stack_kinds (p : HtmlParser) (k : ElementKind) :
    contain_in_stack p k = (stackKinds p).any (fun x => x = k) := by
  unfold contain_in_stack stackKinds
  exact any_kind_map p.stack_of_open_elements k

theorem stackKinds_pop_until (p : HtmlParser) (k : ElementKind) :
    stackKinds (pop_until p k)
      = if contain_in_stack p k then popKindsFuel k (stackKinds p).length (stackKinds p)
        else stackKinds p := by
  unfold pop_until
  split
  · next h =>
    simp only [h, if_true]
    unfold stackKinds
    rw [popUntilFuel_kinds, List.length_map]
  · next h => simp only [h, if_false]

theorem headStack_any_head (ks : List ElementKind) (h : headStackOk ks = true) :
    ks.any (fun x => x = .head) = true := by
  induction ks with
  | nil => simp [headStackOk] at h
  | cons x r ih =>
    rw [headStackOk] at h
    by_cases hx : isRawKind x = true
    · rw [if_pos hx] at h
      simp [ih h]
    · rw [if_neg hx] at h
      have hx' : x = ElementKind.head := by
        cases x <;> simp_all [isRawKind]
      simp [hx']

theorem headStack_pop_head (ks : List ElementKind) :
    ∀ n, ks.length ≤ n → headStackOk ks = true → popKindsFuel .head n ks = [.html] := by
  induction ks with
  | nil => intro n _ h; simp [headStackOk] at h
  | cons x r ih =>
    intro n hlen h
    match n with
    | 0 => simp at hlen
    | m + 1 =>
      rw [headStackOk] at h
      by_cases hx : isRawKind x = true
      · rw [if_pos hx] at h
        have hxh : ¬(x = ElementKind.head) := by
          cases x <;> simp_all [isRawKind]
        rw [popKindsFuel, if_neg hxh]
        exact ih m (by simpa using hlen) h
      · rw [if_neg hx] at h
        simp only [Bool.and_eq_true, decide_eq_true_eq] at h
        rw [popKindsFuel, if_pos h.1]
        exact h.2

theorem headStack_pop_raw (k : ElementKind) (hk : isRawKind k = true) (ks : List ElementKind) :
    ∀ n, ks.length ≤ n → headStackOk ks = true → ks.any (fun x => x = k) = true →
      headStackOk (popKindsFuel k n ks) = true := by
  induction ks with
  | nil => intro n _ h; simp [headStackOk] at h
  | cons x r ih =>
    intro n hlen h hany
    match n with
    | 0 => simp at hlen
    | m + 1 =>
      rw [headStackOk] at h
      by_cases hx : x = k
      · rw [popKindsFuel, if_pos hx]
        rw [if_pos (hx ▸ hk)] at h
        exact h
      · rw [popKindsFuel, if_neg hx]
        by_cases hraw : isRawKind x = true
        · rw [if_pos hraw] at h
          have hany' : r.any (fun y => y = k) = true := by
            simp only [List.any_cons, Bool.or_eq_true, decide_eq_true_eq] at hany
            rcases hany with h1 | h2
            · exact absurd h1 hx
            · exact h2
          exact ih m (by simpa using hlen) h hany'
        · rw [if_neg hraw] at h
          simp only [Bool.and_eq_true, decide_eq_true_eq] at h
          exfalso
          simp only [List.any_cons, Bool.or_eq_true, decide_eq_true_eq] at hany
          rcases hany with h1 | h2
          · exact hx h1
          · rw [h.2] at h2
            simp only [List.any_cons, List.any_nil, Bool.or_false, decide_eq_true_eq] at h2
            rw [← h2] at hk
            simp [isRawKind] at hk

theorem bodyStack_pop_body (ks : List ElementKind) :
    ∀ n, ks.length ≤ n → bodyStackOk ks = true → ks.any (fun x => x = .body) = true →
      popKindsFuel .body n ks = [.html] := by
  induction ks with
  | nil => intro n _ _ hany; simp at hany
  | cons x r ih =>
    intro n hlen h hany
    match n with
    | 0 => simp at hlen
    | m + 1 =>
      rw [bodyStackOk] at h
      by_cases hx : x = ElementKind.body
      · rw [popKindsFuel, if_pos hx]
        rw [if_neg (by rw [hx]; simp [isContentKind])] at h
        simp only [Bool.or_eq_true, Bool.and_eq_true, decide_eq_true_eq] at h
        rcases h with h1 | h2
        · exact h1.2
        · rw [hx] at h2; cases h2.1
      · rw [popKindsFuel, if_neg hx]
        by_cases hc : isContentKind x = true
        · rw [if_pos hc] at h
          have hany' : r.any (fun y => y = ElementKind.body) = true := by
            simp only [List.any_cons, Bool.or_eq_true, decide_eq_true_eq] at hany
            rcases hany with h1 | h2
            · exact absurd h1 hx
            · exact h2
          exact ih m (by simpa using hlen) h hany'
        · rw [if_neg hc] at h
          simp only [Bool.or_eq_true, Bool.and_eq_true, decide_eq_true_eq] at h
          rcases h with h1 | h2
          · exact absurd h1.1 hx
          · exfalso
            simp only [List.any_cons, Bool.or_eq_true, decide_eq_true_eq] at hany
            rcases hany with ha | ha
            · exact hx ha
            · rw [h2.2] at ha; simp at ha

theorem bodyStack_pop_content (k : ElementKind) (hk : isContentKind k = true) (ks : List ElementKind) :
    ∀ n, bodyStackOk ks = true → bodyStackOk (popKindsFuel k n ks) = true := by
  induction ks with
  | nil => intro n h
           match n with
           | 0 => exact h
           | m + 1 => exact h
  | cons x r ih =>
    intro n h
    match n with
    | 0 => exact h
    | m + 1 =>
      rw [bodyStackOk] at h
      by_cases hx : x = k
      · rw [popKindsFuel, if_pos hx]
        rw [if_pos (hx ▸ hk)] at h
        exact h
      · rw [popKindsFuel, if_neg hx]
        by_cases hc : isContentKind x = true
        · rw [if_pos hc] at h
          exact ih m h
        · rw [if_neg hc] at h
          simp only [Bool.or_eq_true, Bool.and_eq_true, decide_eq_true_eq] at h
          rcases h with h1 | h2
          · rw [h1.2]
            match m with
            | 0 => simp [popKindsFuel, bodyStackOk, isContentKind]
            | mm + 1 =>
              rw [popKindsFuel, if_neg (by intro hh; rw [← hh] at hk; simp [isContentKind] at hk)]
              match mm with
              | 0 => simp [popKindsFuel, bodyStackOk]
              | _ + 1 => simp [popKindsFuel, bodyStackOk]
          · rw [h2.2]
            match m with
            | 0 => simp [popKindsFuel, bodyStackOk]
            | mm + 1 => simp [popKindsFuel, bodyStackOk]

theorem pop_until_head_kinds (p : HtmlParser) (h : headStackOk (stackKinds p) = true) :
    stackKinds (pop_until p .head) = [.html] := by
  have hc : contain_in_stack p .head = true := by
    rw [contain_in_stack_kinds]
    exact headStack_any_head _ h
  rw [stackKinds_pop_until, if_pos hc]
  exact headStack_pop_head _ _ (Nat.le_refl _) h

theorem pop_until_raw_kinds (p : HtmlParser) (k : ElementKind) (hk : isRawKind k = true)
    (h : headStackOk (stackKinds p) = true) :
    headStackOk (stackKinds (pop_until p k)) = true := by
  rw [stackKinds_pop_until]
  by_cases hc : contain_in_stack p k = true
  · rw [if_pos hc]
    refine headStack_pop_raw k hk _ _ (Nat.le_refl _) h ?_
    rw [contain_in_stack_kinds] at hc
    exact hc
  · rw [if_neg hc]
    exact h

theorem pop_until_body_kinds (p : HtmlParser) (h : bodyStackOk (stackKinds p) = true)
    (hc : contain_in_stack p .body = true) :
    stackKinds (pop_until p .body) = [.html] := by
  rw [stackKinds_pop_until, if_pos hc]
  rw [contain_in_stack_kinds] at hc
  exact bodyStack_pop_body _ _ (Nat.le_refl _) h hc

theorem pop_until_content_kinds (p : HtmlParser) (k : ElementKind) (hk : isContentKind k = true)
    (h : bodyStackOk (stackKinds p) = true) :
    bodyStackOk (stackKinds (pop_until p k)) = true := by
  rw [stackKinds_pop_until]
  by_cases hc : contain_in_stack p k = true
  · rw [if_pos hc]
    exact bodyStack_pop_content k hk _ _ h
  · rw [if_neg hc]
    exact h

theorem pop_current_node_snd (p : HtmlParser) (k : ElementKind) :
    (pop_current_node p k).2 = decide ((stackKinds p).head? = some k) := by
  unfold pop_current_node stackKinds
  match p.stack_of_open_elements with
  | [] => simp
  | e :: rest =>
    by_cases h : e.kind = k
    · simp [h]
    · simp [h]

theorem pop_current_node_kinds (p : HtmlParser) (k : ElementKind) :
    stackKinds (pop_current_node p k).1
      = if (stackKinds p).head? = some k then (stackKinds p).tail else stackKinds p := by
  unfold pop_current_node
  match hst : p.stack_of_open_elements with
  | [] => simp [stackKinds, hst]
  | e :: rest =>
    by_cases h : e.kind = k
    · simp only [h, if_true]
      unfold stackKinds
      simp [hst, closeOnto_kinds, h]
    · simp [stackKinds, hst, h]

theorem from_str_html : ElementKind.from_str "html" = some .html := by decide
theorem from_str_head : ElementKind.from_str "head" = some .head := by decide
theorem from_str_body : ElementKind.from_str "body" = some .body := by decide
theorem from_str_style : ElementKind.from_str "style" = some .style := by decide
theorem from_str_script : ElementKind.from_str "script" = some .script := by decide
theorem from_str_p : ElementKind.from_str "p" = some .p := by decide
theorem from_str_h1 : ElementKind.from_str "h1" = some .h1 := by decide
theorem from_str_h2 : ElementKind.from_str "h2" = some .h2 := by decide
theorem from_str_a : ElementKind.from_str "a" = some .a := by decide

theorem insert_element_kinds (p : HtmlParser) (tag : String) (attrs : List (String × String))
    (k : ElementKind) (h : ElementKind.from_str tag = some k) :
    stackKinds (insert_element p tag attrs) = k :: stackKinds p := by
  unfold insert_element
  rw [h]
  rfl

@[simp] theorem ReachInv_set_t (p : HtmlParser) (ts : List HtmlToken) :
    ReachInv { p with t := ts } = ReachInv p := rfl

theorem modeRank_le (m : InsertionMode) (e : Bool) : modeRank m e ≤ 8 := by
  cases m <;> cases e <;> simp [modeRank]

theorem mu_consume (p p' : HtmlParser) (tok : HtmlToken) (rest : List HtmlToken)
    (ht : p.t = tok :: rest) (ht' : p'.t = rest) : mu p' < mu p := by
  unfold mu
  rw [ht, ht']
  have h1 : modeRank p'.mode (headEndHtml rest) ≤ 8 := modeRank_le _ _
  simp only [List.length_cons]
  omega

theorem mu_mode_lt (p p' : HtmlParser) (ht : p'.t = p.t)
    (hrank : modeRank p'.mode (headEndHtml p.t) < modeRank p.mode (headEndHtml p.t)) :
    mu p' < mu p := by
  unfold mu
  rw [ht]
  omega

theorem ReachInv_eq (p : HtmlParser) : ReachInv p = true ↔
    ((p.original_insertion_mode = .Initial ∨ p.original_insertion_mode = .InHead) ∧
     (p.mode = .Text → p.original_insertion_mode = .InHead) ∧
     stackOk p.mode (stackKinds p) = true) := by
  unfold ReachInv originalOk
  simp only [Bool.and_eq_true, Bool.or_eq_true, Bool.not_eq_true', decide_eq_true_eq,
    decide_eq_false_iff_not]
  constructor
  · rintro ⟨⟨h1, h2⟩, h3⟩
    refine ⟨h1, ?_, h3⟩
    rcases h2 with h2 | h2
    · intro hm; exact absurd hm h2
    · intro _; exact h2
  · rintro ⟨h1, h2, h3⟩
    refine ⟨⟨h1, ?_⟩, h3⟩
    by_cases hm : p.mode = .Text
    · exact Or.inr (h2 hm)
    · exact Or.inl hm

theorem good_initial (p : HtmlParser) (tok : HtmlToken) (rest : List HtmlToken)
    (hInv : ReachInv p = true) (ht : p.t = tok :: rest) (hm : p.mode = .Initial) :
    StepGood p (stepInitial p tok rest) := by
  obtain ⟨hO, hOT, hS⟩ := (ReachInv_eq p).mp hInv
  cases tok with
  | char c =>
    right
    refine ⟨_, rfl, hInv, ?_, ?_⟩
    · exact mu_consume p _ _ rest ht rfl
    · left; rw [ht]; simp
  | startTag tag sc attrs =>
    right
    refine ⟨_, rfl, ?_, ?_, ?_⟩
    · rw [ReachInv_eq]
      refine ⟨hO, by intro h; simp at h, ?_⟩
      show stackOk .BeforeHtml (stackKinds p) = true
      rw [hm] at hS
      exact hS
    · refine mu_mode_lt p _ rfl ?_
      rw [hm]
      show modeRank .BeforeHtml _ < modeRank .Initial _
      cases headEndHtml p.t <;> simp [modeRank]
    · right
      refine ⟨rfl, ?_⟩
      rw [hm]
      simp
  | endTag tag =>
    right
    refine ⟨_, rfl, ?_, ?_, ?_⟩
    · rw [ReachInv_eq]
      refine ⟨hO, by intro h; simp at h, ?_⟩
      show stackOk .BeforeHtml (stackKinds p) = true
      rw [hm] at hS
      exact hS
    · refine mu_mode_lt p _ rfl ?_
      rw [hm]
      show modeRank .BeforeHtml _ < modeRank .Initial _
      cases headEndHtml p.t <;> simp [modeRank]
    · right
      refine ⟨rfl, ?_⟩
      rw [hm]
      simp
  | eof =>
    right
    refine ⟨_, rfl, ?_, ?_, ?_⟩
    · rw [ReachInv_eq]
      refine ⟨hO, by intro h; simp at h, ?_⟩
      show stackOk .BeforeHtml (stackKinds p) = true
      rw [hm] at hS
      exact hS
    · refine mu_mode_lt p _ rfl ?_
      rw [hm]
      show modeRank .BeforeHtml _ < modeRank .Initial _
      cases headEndHtml p.t <;> simp [modeRank]
    · right
      refine ⟨rfl, ?_⟩
      rw [hm]
      simp

theorem good_beforeHtml (p : HtmlParser) (tok : HtmlToken) (rest : List HtmlToken)
    (hInv : ReachInv p = true) (ht : p.t = tok :: rest) (hm : p.mode = .BeforeHtml) :
    StepGood p (stepBeforeHtml p tok rest) := by
  obtain ⟨hO, hOT, hS⟩ := (ReachInv_eq p).mp hInv
  have hks : stackKinds p = [] := by
    rw [hm] at hS
    simpa [stackOk] using hS
  cases tok with
  | char c =>
    by_cases hc : c = ' ' ∨ c = '\n'
    · right
      rw [stepBeforeHtml.eq_def]
      simp only [if_pos hc]
      refine ⟨_, rfl, hInv, ?_, ?_⟩
      · exact mu_consume p _ _ rest ht rfl
      · left; rw [ht]; simp
    · right
      rw [stepBeforeHtml.eq_def]
      simp only [if_neg hc]
      refine ⟨_, rfl, ?_, ?_, ?_⟩
      · rw [ReachInv_eq]
        refine ⟨by simpa using hO, by intro h; simp at h, ?_⟩
        show stackOk .BeforeHead (stackKinds (insert_element p "html" [])) = true
        rw [insert_element_kinds p "html" [] .html from_str_html, hks]
        simp [stackOk]
      · refine mu_mode_lt p _ (by simp) ?_
        rw [hm]
        show modeRank .BeforeHead _ < modeRank .BeforeHtml _
        cases headEndHtml p.t <;> simp [modeRank]
      · right
        refine ⟨by simp, ?_⟩
        rw [hm]
        simp
  | startTag tag sc attrs =>
    by_cases htag : tag = "html"
    · right
      rw [stepBeforeHtml.eq_def]
      simp only [if_pos htag]
      refine ⟨_, rfl, ?_, ?_, ?_⟩
      · rw [ReachInv_eq]
        refine ⟨by simpa using hO, by intro h; simp at h, ?_⟩
        show stackOk .BeforeHead (stackKinds (insert_element p tag attrs)) = true
        rw [htag, insert_element_kinds p "html" attrs .html from_str_html, hks]
        simp [stackOk]
      · exact mu_consume p _ _ rest ht rfl
      · left; rw [ht]; simp
    · right
      rw [stepBeforeHtml.eq_def]
      simp only [if_neg htag]
      refine ⟨_, rfl, ?_, ?_, ?_⟩
      · rw [ReachInv_eq]
        refine ⟨by simpa using hO, by intro h; simp at h, ?_⟩
        show stackOk .BeforeHead (stackKinds (insert_element p "html" [])) = true
        rw [insert_element_kinds p "html" [] .html from_str_html, hks]
        simp [stackOk]
      · refine mu_mode_lt p _ (by simp) ?_
        rw [hm]
        show modeRank .BeforeHead _ < modeRank .BeforeHtml _
        cases headEndHtml p.t <;> simp [modeRank]
      · right
        refine ⟨by simp, ?_⟩
        rw [hm]
        simp
  | endTag tag =>
    right
    rw [stepBeforeHtml.eq_def]
    refine ⟨_, rfl, ?_, ?_, ?_⟩
    · rw [ReachInv_eq]
      refine ⟨by simpa using hO, by intro h; simp at h, ?_⟩
      show stackOk .BeforeHead (stackKinds (insert_element p "html" [])) = true
      rw [insert_element_kinds p "html" [] .html from_str_html, hks]
      simp [stackOk]
    · refine mu_mode_lt p _ (by simp) ?_
      rw [hm]
      show modeRank .BeforeHead _ < modeRank .BeforeHtml _
      cases headEndHtml p.t <;> simp [modeRank]
    · right
      refine ⟨by simp, ?_⟩
      rw [hm]
      simp
  | eof =>
    left
    exact ⟨windowOf p, rfl⟩

theorem good_beforeHead (p : HtmlParser) (tok : HtmlToken) (rest : List HtmlToken)
    (hInv : ReachInv p = true) (ht : p.t = tok :: rest) (hm : p.mode = .BeforeHead) :
    StepGood p (stepBeforeHead p tok rest) := by
  obtain ⟨hO, hOT, hS⟩ := (ReachInv_eq p).mp hInv
  have hks : stackKinds p = [.html] := by
    rw [hm] at hS
    simpa [stackOk] using hS
  cases tok with
  | char c =>
    by_cases hc : c = ' ' ∨ c = '\n'
    · right
      rw [stepBeforeHead.eq_def]
      simp only [if_pos hc]
      refine ⟨_, rfl, hInv, ?_, ?_⟩
      · exact mu_consume p _ _ rest ht rfl
      · left; rw [ht]; simp
    · right
      rw [stepBeforeHead.eq_def]
      simp only [if_neg hc]
      refine ⟨_, rfl, ?_, ?_, ?_⟩
      · rw [ReachInv_eq]
        refine ⟨by simpa using hO, by intro h; simp at h, ?_⟩
        show stackOk .InHead (stackKinds (insert_element p "head" [])) = true
        rw [insert_element_kinds p "head" [] .head from_str_head, hks]
        simp [stackOk, headStackOk, isRawKind]
      · refine mu_mode_lt p _ (by simp) ?_
        rw [hm]
        show modeRank .InHead _ < modeRank .BeforeHead _
        cases headEndHtml p.t <;> simp [modeRank]
      · right
        refine ⟨by simp, ?_⟩
        rw [hm]
        simp
  | startTag tag sc attrs =>
    by_cases htag : tag = "head"
    · right
      rw [stepBeforeHead.eq_def]
      simp only [if_pos htag]
      refine ⟨_, rfl, ?_, ?_, ?_⟩
      · rw [ReachInv_eq]
        refine ⟨by simpa using hO, by intro h; simp at h, ?_⟩
        show stackOk .InHead (stackKinds (insert_element p tag attrs)) = true
        rw [htag, insert_element_kinds p "head" attrs .head from_str_head, hks]
        simp [stackOk, headStackOk, isRawKind]
      · exact mu_consume p _ _ rest ht rfl
      · left; rw [ht]; simp
    · right
      rw [stepBeforeHead.eq_def]
      simp only [if_neg htag]
      refine ⟨_, rfl, ?_, ?_, ?_⟩
      · rw [ReachInv_eq]
        refine ⟨by simpa using hO, by intro h; simp at h, ?_⟩
        show stackOk .InHead (stackKinds (insert_element p "head" [])) = true
        rw [insert_element_kinds p "head" [] .head from_str_head, hks]
        simp [stackOk, headStackOk, isRawKind]
      · refine mu_mode_lt p _ (by simp) ?_
        rw [hm]
        show modeRank .InHead _ < modeRank .BeforeHead _
        cases headEndHtml p.t <;> simp [modeRank]
      · right
        refine ⟨by simp, ?_⟩
        rw [hm]
        simp
  | endTag tag =>
    right
    rw [stepBeforeHead.eq_def]
    refine ⟨_, rfl, ?_, ?_, ?_⟩
    · rw [ReachInv_eq]
      refine ⟨by simpa using hO, by intro h; simp at h, ?_⟩
      show stackOk .InHead (stackKinds (insert_element p "head" [])) = true
      rw [insert_element_kinds p "head" [] .head from_str_head, hks]
      simp [stackOk, headStackOk, isRawKind]
    · refine mu_mode_lt p _ (by simp) ?_
      rw [hm]
      show modeRank .InHead _ < modeRank .BeforeHead _
      cases headEndHtml p.t <;> simp [modeRank]
    · right
      refine ⟨by simp, ?_⟩
      rw [hm]
      simp
  | eof =>
    left
    exact ⟨windowOf p, rfl⟩

theorem good_inHead (p : HtmlParser) (tok : HtmlToken) (rest : List HtmlToken)
    (hInv : ReachInv p = true) (ht : p.t = tok :: rest) (hm : p.mode = .InHead) :
    StepGood p (stepInHead p tok rest) := by
  obtain ⟨hO, hOT, hS⟩ := (ReachInv_eq p).mp hInv
  have hks : headStackOk (stackKinds p) = true := by
    rw [hm] at hS
    simpa [stackOk] using hS
  cases tok with
  | char c =>
    have hstep : stepInHead p (.char c) rest = .cont { p with t := rest } := by
      rw [stepInHead.eq_def]
      dsimp only
      split <;> rfl
    rw [hstep]
    right
    refine ⟨_, rfl, hInv, ?_, ?_⟩
    · exact mu_consume p _ _ rest ht rfl
    · left; rw [ht]; simp
  | startTag tag sc attrs =>
    rw [stepInHead.eq_def]
    by_cases hraw : tag = "style" ∨ tag = "script"
    · simp only [if_pos hraw]
      right
      refine ⟨_, rfl, ?_, ?_, ?_⟩
      · rw [ReachInv_eq]
        refine ⟨?_, ?_, ?_⟩
        · right
          show (insert_element p tag attrs).mode = .InHead
          rw [insert_element_mode, hm]
        · intro _
          show (insert_element p tag attrs).mode = .InHead
          rw [insert_element_mode, hm]
        · show stackOk .Text (stackKinds (insert_element p tag attrs)) = true
          rcases hraw with hstyle | hscript
          · rw [hstyle, insert_element_kinds p "style" attrs .style from_str_style]
            simpa [stackOk, headStackOk, isRawKind] using hks
          · rw [hscript, insert_element_kinds p "script" attrs .script from_str_script]
            simpa [stackOk, headStackOk, isRawKind] using hks
      · exact mu_consume p _ _ rest ht rfl
      · left; rw [ht]; simp
    · simp only [if_neg hraw]
      by_cases hbody : tag = "body"
      · simp only [if_pos hbody]
        right
        refine ⟨_, rfl, ?_, ?_, ?_⟩
        · rw [ReachInv_eq]
          refine ⟨by simpa using hO, by intro h; simp at h, ?_⟩
          show stackOk .AfterHead (stackKinds (pop_until p .head)) = true
          rw [pop_until_head_kinds p hks]
          simp [stackOk]
        · refine mu_mode_lt p _ (by simp) ?_
          rw [hm]
          show modeRank .AfterHead _ < modeRank .InHead _
          cases headEndHtml p.t <;> simp [modeRank]
        · right
          refine ⟨by simp, ?_⟩
          rw [hm]
          simp
      · simp only [if_neg hbody]
        cases hfs : ElementKind.from_str tag with
        | some k =>
          right
          refine ⟨_, rfl, ?_, ?_, ?_⟩
          · rw [ReachInv_eq]
            refine ⟨by simpa using hO, by intro h; simp at h, ?_⟩
            show stackOk .AfterHead (stackKinds (pop_until p .head)) = true
            rw [pop_until_head_kinds p hks]
            simp [stackOk]
          · refine mu_mode_lt p _ (by simp) ?_
            rw [hm]
            show modeRank .AfterHead _ < modeRank .InHead _
            cases headEndHtml p.t <;> simp [modeRank]
          · right
            refine ⟨by simp, ?_⟩
            rw [hm]
            simp
        | none =>
          right
          refine ⟨_, rfl, hInv, ?_, ?_⟩
          · exact mu_consume p _ _ rest ht rfl
          · left; rw [ht]; simp
  | endTag tag =>
    rw [stepInHead.eq_def]
    by_cases hhead : tag = "head"
    · simp only [if_pos hhead]
      right
      refine ⟨_, rfl, ?_, ?_, ?_⟩
      · rw [ReachInv_eq]
        refine ⟨by simpa using hO, by intro h; simp at h, ?_⟩
        show stackOk .AfterHead (stackKinds (pop_until p .head)) = true
        rw [pop_until_head_kinds p hks]
        simp [stackOk]
      · exact mu_consume p _ _ rest ht rfl
      · left; rw [ht]; simp
    · simp only [if_neg hhead]
      right
      refine ⟨_, rfl, hInv, ?_, ?_⟩
      · exact mu_consume p _ _ rest ht rfl
      · left; rw [ht]; simp
  | eof =>
    left
    exact ⟨windowOf p, rfl⟩

@[simp] theorem stackKinds_set_t (q : HtmlParser) (ts : List HtmlToken) :
    stackKinds { q with t := ts } = stackKinds q := rfl

@[simp] theorem stackKinds_set_mode (q : HtmlParser) (m : InsertionMode) :
    stackKinds { q with mode := m } = stackKinds q := rfl

@[simp] theorem stackKinds_set_mode_t (q : HtmlParser) (m : InsertionMode) (ts : List HtmlToken) :
    stackKinds { q with mode := m, t := ts } = stackKinds q := rfl

@[simp] theorem stackKinds_set_orig_mode_t (q : HtmlParser) (o m : InsertionMode) (ts : List HtmlToken) :
    stackKinds { q with original_insertion_mode := o, mode := m, t := ts } = stackKinds q := rfl

theorem good_afterHead (p : HtmlParser) (tok : HtmlToken) (rest : List HtmlToken)
    (hInv : ReachInv p = true) (ht : p.t = tok :: rest) (hm : p.mode = .AfterHead) :
    StepGood p (stepAfterHead p tok rest) := by
  obtain ⟨hO, hOT, hS⟩ := (ReachInv_eq p).mp hInv
  have hks : stackKinds p = [.html] := by
    rw [hm] at hS
    simpa [stackOk] using hS
  cases tok with
  | char c =>
    by_cases hc : c = ' ' ∨ c = '\n'
    · right
      rw [stepAfterHead.eq_def]
      simp only [if_pos hc]
      refine ⟨_, rfl, hInv, ?_, ?_⟩
      · exact mu_consume p _ _ rest ht rfl
      · left; rw [ht]; simp
    · right
      rw [stepAfterHead.eq_def]
      simp only [if_neg hc]
      refine ⟨_, rfl, ?_, ?_, ?_⟩
      · rw [ReachInv_eq]
        refine ⟨by simpa using hO, by intro h; simp at h, ?_⟩
        show stackOk .InBody (stackKinds (insert_element p "body" [])) = true
        rw [insert_element_kinds p "body" [] .body from_str_body, hks]
        simp [stackOk, bodyStackOk, isContentKind]
      · refine mu_mode_lt p _ (by simp) ?_
        rw [hm]
        show modeRank .InBody _ < modeRank .AfterHead _
        cases headEndHtml p.t <;> simp [modeRank]
      · right
        refine ⟨by simp, ?_⟩
        rw [hm]
        simp
  | startTag tag sc attrs =>
    by_cases htag : tag = "body"
    · right
      rw [stepAfterHead.eq_def]
      simp only [if_pos htag]
      refine ⟨_, rfl, ?_, ?_, ?_⟩
      · rw [ReachInv_eq]
        refine ⟨by simpa using hO, by intro h; simp at h, ?_⟩
        show stackOk .InBody (stackKinds (insert_element p tag attrs)) = true
        rw [htag, insert_element_kinds p "body" attrs .body from_str_body, hks]
        simp [stackOk, bodyStackOk, isContentKind]
      · exact mu_consume p _ _ rest ht rfl
      · left; rw [ht]; simp
    · right
      rw [stepAfterHead.eq_def]
      simp only [if_neg htag]
      refine ⟨_, rfl, ?_, ?_, ?_⟩
      · rw [ReachInv_eq]
        refine ⟨by simpa using hO, by intro h; simp at h, ?_⟩
        show stackOk .InBody (stackKinds (insert_element p "body" [])) = true
        rw [insert_element_kinds p "body" [] .body from_str_body, hks]
        simp [stackOk, bodyStackOk, isContentKind]
      · refine mu_mode_lt p _ (by simp) ?_
        rw [hm]
        show modeRank .InBody _ < modeRank .AfterHead _
        cases headEndHtml p.t <;> simp [modeRank]
      · right
        refine ⟨by simp, ?_⟩
        rw [hm]
        simp
  | endTag tag =>
    right
    rw [stepAfterHead.eq_def]
    refine ⟨_, rfl, ?_, ?_, ?_⟩
    · rw [ReachInv_eq]
      refine ⟨by simpa using hO, by intro h; simp at h, ?_⟩
      show stackOk .InBody (stackKinds (insert_element p "body" [])) = true
      rw [insert_element_kinds p "body" [] .body from_str_body, hks]
      simp [stackOk, bodyStackOk, isContentKind]
    · refine mu_mode_lt p _ (by simp) ?_
      rw [hm]
      show modeRank .InBody _ < modeRank .AfterHead _
      cases headEndHtml p.t <;> simp [modeRank]
    · right
      refine ⟨by simp, ?_⟩
      rw [hm]
      simp
  | eof =>
    left
    exact ⟨windowOf p, rfl⟩

theorem good_text (p : HtmlParser) (tok : HtmlToken) (rest : List HtmlToken)
    (hInv : ReachInv p = true) (ht : p.t = tok :: rest) (hm : p.mode = .Text) :
    StepGood p (stepText p tok rest) := by
  obtain ⟨hO, hOT, hS⟩ := (ReachInv_eq p).mp hInv
  have hks : headStackOk (stackKinds p) = true := by
    rw [hm] at hS
    simpa [stackOk] using hS
  have hOI : p.original_insertion_mode = .InHead := hOT hm
  cases tok with
  | char c =>
    right
    refine ⟨_, rfl, ?_, ?_, ?_⟩
    · rw [ReachInv_eq]
      refine ⟨by simpa using hO, ?_, ?_⟩
      · intro _
        simpa using hOI
      · have hgoal : stackOk (insert_char p c).mode (stackKinds (insert_char p c)) = true := by
          rw [insert_char_mode, insert_char_kinds, hm]
          exact hks
        exact hgoal
    · exact mu_consume p _ _ rest ht rfl
    · left; rw [ht]; simp
  | startTag tag sc attrs =>
    right
    rw [stepText.eq_def]
    refine ⟨_, rfl, ?_, ?_, ?_⟩
    · rw [ReachInv_eq]
      refine ⟨by simpa using hO, ?_, ?_⟩
      · intro h
        have h2 : p.original_insertion_mode = .Text := h
        rw [hOI] at h2
        cases h2
      · show stackOk p.original_insertion_mode (stackKinds p) = true
        rw [hOI]
        exact hks
    · refine mu_mode_lt p _ rfl ?_
      show modeRank p.original_insertion_mode _ < modeRank p.mode _
      rw [hOI, hm]
      cases headEndHtml p.t <;> simp [modeRank]
    · right
      refine ⟨rfl, ?_⟩
      show p.original_insertion_mode ≠ p.mode
      rw [hOI, hm]
      simp
  | endTag tag =>
    rw [stepText.eq_def]
    by_cases hstyle : tag = "style"
    · simp only [if_pos hstyle]
      right
      refine ⟨_, rfl, ?_, ?_, ?_⟩
      · rw [ReachInv_eq]
        refine ⟨by simpa using hO, ?_, ?_⟩
        · intro h
          have h2 : p.original_insertion_mode = .Text := by
            simpa using h
          rw [hOI] at h2
          cases h2
        · simp only [pop_until_mode]
          show stackOk p.original_insertion_mode (stackKinds { pop_until p .style with mode := p.original_insertion_mode, t := rest }) = true
          rw [hOI]
          show headStackOk (stackKinds (pop_until p .style)) = true
          exact pop_until_raw_kinds p .style rfl hks
      · exact mu_consume p _ _ rest ht (by simp)
      · left; rw [ht]; simp
    · simp only [if_neg hstyle]
      by_cases hscript : tag = "script"
      · simp only [if_pos hscript]
        right
        refine ⟨_, rfl, ?_, ?_, ?_⟩
        · rw [ReachInv_eq]
          refine ⟨by simpa using hO, ?_, ?_⟩
          · intro h
            have h2 : p.original_insertion_mode = .Text := by
              simpa using h
            rw [hOI] at h2
            cases h2
          · simp only [pop_until_mode]
            show stackOk p.original_insertion_mode (stackKinds { pop_until p .script with mode := p.original_insertion_mode, t := rest }) = true
            rw [hOI]
            show headStackOk (stackKinds (pop_until p .script)) = true
            exact pop_until_raw_kinds p .script rfl hks
        · exact mu_consume p _ _ rest ht (by simp)
        · left; rw [ht]; simp
      · simp only [if_neg hscript]
        right
        refine ⟨_, rfl, ?_, ?_, ?_⟩
        · rw [ReachInv_eq]
          refine ⟨by simpa using hO, ?_, ?_⟩
          · intro h
            have h2 : p.original_insertion_mode = .Text := h
            rw [hOI] at h2
            cases h2
          · show stackOk p.original_insertion_mode (stackKinds p) = true
            rw [hOI]
            exact hks
        · refine mu_mode_lt p _ rfl ?_
          show modeRank p.original_insertion_mode _ < modeRank p.mode _
          rw [hOI, hm]
          cases headEndHtml p.t <;> simp [modeRank]
        · right
          refine ⟨rfl, ?_⟩
          show p.original_insertion_mode ≠ p.mode
          rw [hOI, hm]
          simp
  | eof =>
    left
    exact ⟨windowOf p, rfl⟩

theorem good_inBody (p : HtmlParser) (tok : HtmlToken) (rest : List HtmlToken)
    (hInv : ReachInv p = true) (ht : p.t = tok :: rest) (hm : p.mode = .InBody) :
    StepGood p (stepInBody p tok rest) := by
  obtain ⟨hO, hOT, hS⟩ := (ReachInv_eq p).mp hInv
  have hks : bodyStackOk (stackKinds p) = true := by
    rw [hm] at hS
    simpa [stackOk] using hS
  cases tok with
  | char c =>
    right
    refine ⟨_, rfl, ?_, ?_, ?_⟩
    · rw [ReachInv_eq]
      refine ⟨by simpa using hO, ?_, ?_⟩
      · intro h
        have h2 : (insert_char p c).mode = .Text := h
        rw [insert_char_mode, hm] at h2
        cases h2
      · have hgoal : stackOk (insert_char p c).mode (stackKinds (insert_char p c)) = true := by
          rw [insert_char_mode, insert_char_kinds, hm]
          exact hks
        exact hgoal
    · exact mu_consume p _ _ rest ht rfl
    · left; rw [ht]; simp
  | startTag tag sc attrs =>
    rw [stepInBody.eq_def]
    have content :
        ∀ k : ElementKind, ElementKind.from_str tag = some k → isContentKind k = true →
          StepGood p (.cont { insert_element p tag attrs with t := rest }) := by
      intro k hk hck
      right
      refine ⟨_, rfl, ?_, ?_, ?_⟩
      · rw [ReachInv_eq]
        refine ⟨by simpa using hO, ?_, ?_⟩
        · intro h
          have h2 : (insert_element p tag attrs).mode = .Text := h
          rw [insert_element_mode, hm] at h2
          cases h2
        · have hgoal : stackOk (insert_element p tag attrs).mode
              (stackKinds (insert_element p tag attrs)) = true := by
            rw [insert_element_mode, hm, insert_element_kinds p tag attrs k hk]
            show bodyStackOk (k :: stackKinds p) = true
            rw [bodyStackOk, if_pos hck]
            exact hks
          exact hgoal
      · exact mu_consume p _ _ rest ht rfl
      · left; rw [ht]; simp
    by_cases hp : tag = "p"
    · simp only [if_pos hp]
      exact content .p (by rw [hp]; exact from_str_p) rfl
    · simp only [if_neg hp]
      by_cases h12 : tag = "h1" ∨ tag = "h2"
      · simp only [if_pos h12]
        rcases h12 with h1 | h2
        · exact content .h1 (by rw [h1]; exact from_str_h1) rfl
        · exact content .h2 (by rw [h2]; exact from_str_h2) rfl
      · simp only [if_neg h12]
        by_cases ha : tag = "a"
        · simp only [if_pos ha]
          exact content .a (by rw [ha]; exact from_str_a) rfl
        · simp only [if_neg ha]
          right
          refine ⟨_, rfl, hInv, ?_, ?_⟩
          · exact mu_consume p _ _ rest ht rfl
          · left; rw [ht]; simp
  | endTag tag =>
    rw [stepInBody.eq_def]
    by_cases hbody : tag = "body"
    · simp only [if_pos hbody]
      by_cases hc : contain_in_stack { p with mode := InsertionMode.AfterBody, t := rest } ElementKind.body = true
      · rw [if_pos hc]
        right
        refine ⟨_, rfl, ?_, ?_, ?_⟩
        · rw [ReachInv_eq]
          refine ⟨by simpa using hO, by intro h; simp at h, ?_⟩
          have hc' : contain_in_stack { p with mode := InsertionMode.AfterBody, t := rest } ElementKind.body = true := hc
          have hgoal : stackOk (pop_until { p with mode := InsertionMode.AfterBody, t := rest } ElementKind.body).mode
              (stackKinds (pop_until { p with mode := InsertionMode.AfterBody, t := rest } ElementKind.body)) = true := by
            rw [pop_until_mode]
            have hkb : stackKinds (pop_until { p with mode := InsertionMode.AfterBody, t := rest } ElementKind.body) = [.html] := by
              refine pop_until_body_kinds _ ?_ hc'
              show bodyStackOk (stackKinds p) = true
              exact hks
            rw [hkb]
            rfl
          exact hgoal
        · exact mu_consume p _ _ rest ht (by simp)
        · left; rw [ht]; simp
      · rw [if_neg hc]
        right
        refine ⟨_, rfl, ?_, ?_, ?_⟩
        · rw [ReachInv_eq]
          refine ⟨by simpa using hO, by intro h; simp at h, ?_⟩
          show stackOk .AfterBody (stackKinds p) = true
          exact hks
        · exact mu_consume p _ _ rest ht rfl
        · left; rw [ht]; simp
    · simp only [if_neg hbody]
      by_cases hhtml : tag = "html"
      · simp only [if_pos hhtml]
        by_cases htop : (stackKinds p).head? = some ElementKind.body
        · obtain ⟨tl, hsk⟩ : ∃ tl, stackKinds p = ElementKind.body :: tl := by
            cases hsk : stackKinds p with
            | nil => rw [hsk] at htop; simp at htop
            | cons x tl =>
              rw [hsk] at htop
              simp only [List.head?_cons, Option.some_inj] at htop
              exact ⟨tl, by rw [htop]⟩
          have htl : tl = [ElementKind.html] := by
            rw [hsk, bodyStackOk] at hks
            rw [if_neg (by decide : ¬(isContentKind ElementKind.body = true))] at hks
            simp only [Bool.or_eq_true, Bool.and_eq_true, decide_eq_true_eq] at hks
            rcases hks with h1 | h2
            · exact h1.2
            · cases h2.1
          have hq2 : (pop_current_node p ElementKind.body).2 = true := by
            rw [pop_current_node_snd, htop]
            simp
          have hq1k : stackKinds (pop_current_node p ElementKind.body).1 = [ElementKind.html] := by
            rw [pop_current_node_kinds, if_pos htop, hsk, htl]
            rfl
          have hr2 : (pop_current_node { (pop_current_node p ElementKind.body).1 with mode := InsertionMode.AfterBody } ElementKind.html).2 = true := by
            rw [pop_current_node_snd]
            have hx : stackKinds { (pop_current_node p ElementKind.body).1 with mode := InsertionMode.AfterBody } = [ElementKind.html] := by
              rw [stackKinds_set_mode, hq1k]
            rw [hx]
            simp
          rw [if_pos hq2, if_pos hr2]
          have hmode : ((pop_current_node { (pop_current_node p ElementKind.body).1 with mode := InsertionMode.AfterBody } ElementKind.html).1).mode = InsertionMode.AfterBody := by
            rw [pop_current_node_mode]
          have hkfin : stackKinds ((pop_current_node { (pop_current_node p ElementKind.body).1 with mode := InsertionMode.AfterBody } ElementKind.html).1) = [] := by
            rw [pop_current_node_kinds]
            rw [stackKinds_set_mode, hq1k]
            rfl
          right
          refine ⟨_, rfl, ?_, ?_, ?_⟩
          · rw [ReachInv_eq]
            refine ⟨by simpa using hO, ?_, ?_⟩
            · intro h
              rw [hmode] at h
              cases h
            · rw [hmode, hkfin]
              rfl
          · refine mu_mode_lt p _ (by simp) ?_
            rw [hmode, hm, ht, hhtml]
            show modeRank .AfterBody (headEndHtml (.endTag "html" :: rest)) < modeRank .InBody (headEndHtml (.endTag "html" :: rest))
            simp [headEndHtml, isEndHtml, modeRank]
          · right
            refine ⟨by simp, ?_⟩
            rw [hmode, hm]
            simp
        · have hq2 : (pop_current_node p ElementKind.body).2 = false := by
            rw [pop_current_node_snd]
            simpa using htop
          rw [if_neg (by rw [hq2]; simp)]
          right
          refine ⟨_, rfl, hInv, ?_, ?_⟩
          · exact mu_consume p _ _ rest ht rfl
          · left; rw [ht]; simp
      · simp only [if_neg hhtml]
        have popLeaf :
            ∀ k : ElementKind, ElementKind.from_str tag = some k → isContentKind k = true →
              StepGood p (.cont (pop_until { p with t := rest } k)) := by
          intro k hk hck
          right
          refine ⟨_, rfl, ?_, ?_, ?_⟩
          · rw [ReachInv_eq]
            refine ⟨by simpa using hO, ?_, ?_⟩
            · intro h
              have h2 : ({ p with t := rest } : HtmlParser).mode = .Text := by
                rw [← pop_until_mode _ k]
                exact h
              have h3 : p.mode = .Text := h2
              rw [hm] at h3
              cases h3
            · have hgoal : stackOk (pop_until { p with t := rest } k).mode
                  (stackKinds (pop_until { p with t := rest } k)) = true := by
                rw [pop_until_mode]
                show stackOk p.mode _ = true
                rw [hm]
                have : bodyStackOk (stackKinds ({ p with t := rest } : HtmlParser)) = true := hks
                exact pop_until_content_kinds _ k hck this
              exact hgoal
          · exact mu_consume p _ _ rest ht (by simp)
          · left; rw [ht]; simp
        by_cases hptag : tag = "p" ∨ tag = "h1" ∨ tag = "h2" ∨ tag = "a"
        · simp only [if_pos hptag]
          rcases hptag with h | h | h | h
          · rw [show ElementKind.from_str tag = some .p by rw [h]; exact from_str_p]
            exact popLeaf .p (by rw [h]; exact from_str_p) rfl
          · rw [show ElementKind.from_str tag = some .h1 by rw [h]; exact from_str_h1]
            exact popLeaf .h1 (by rw [h]; exact from_str_h1) rfl
          · rw [show ElementKind.from_str tag = some .h2 by rw [h]; exact from_str_h2]
            exact popLeaf .h2 (by rw [h]; exact from_str_h2) rfl
          · rw [show ElementKind.from_str tag = some .a by rw [h]; exact from_str_a]
            exact popLeaf .a (by rw [h]; exact from_str_a) rfl
        · simp only [if_neg hptag]
          right
          refine ⟨_, rfl, hInv, ?_, ?_⟩
          · exact mu_consume p _ _ rest ht rfl
          · left; rw [ht]; simp
  | eof =>
    left
    exact ⟨windowOf p, rfl⟩

theorem good_afterBody (p : HtmlParser) (tok : HtmlToken) (rest : List HtmlToken)
    (hInv : ReachInv p = true) (ht : p.t = tok :: rest) (hm : p.mode = .AfterBody) :
    StepGood p (stepAfterBody p tok rest) := by
  obtain ⟨hO, hOT, hS⟩ := (ReachInv_eq p).mp hInv
  have hks : bodyStackOk (stackKinds p) = true := by
    rw [hm] at hS
    simpa [stackOk] using hS
  cases tok with
  | char c =>
    right
    refine ⟨_, rfl, hInv, ?_, ?_⟩
    · exact mu_consume p _ _ rest ht rfl
    · left; rw [ht]; simp
  | startTag tag sc attrs =>
    rw [stepAfterBody.eq_def]
    right
    refine ⟨_, rfl, ?_, ?_, ?_⟩
    · rw [ReachInv_eq]
      refine ⟨by simpa using hO, by intro h; simp at h, ?_⟩
      show stackOk .InBody (stackKinds p) = true
      exact hks
    · refine mu_mode_lt p _ rfl ?_
      rw [hm, ht]
      show modeRank .InBody (headEndHtml (.startTag tag sc attrs :: rest)) <
        modeRank .AfterBody (headEndHtml (.startTag tag sc attrs :: rest))
      simp [headEndHtml, isEndHtml, modeRank]
    · right
      refine ⟨rfl, ?_⟩
      rw [hm]
      simp
  | endTag tag =>
    rw [stepAfterBody.eq_def]
    by_cases hhtml : tag = "html"
    · simp only [if_pos hhtml]
      right
      refine ⟨_, rfl, ?_, ?_, ?_⟩
      · rw [ReachInv_eq]
        refine ⟨by simpa using hO, by intro h; simp at h, ?_⟩
        show stackOk .AfterAfterBody (stackKinds p) = true
        exact hks
      · exact mu_consume p _ _ rest ht rfl
      · left; rw [ht]; simp
    · simp only [if_neg hhtml]
      right
      refine ⟨_, rfl, ?_, ?_, ?_⟩
      · rw [ReachInv_eq]
        refine ⟨by simpa using hO, by intro h; simp at h, ?_⟩
        show stackOk .InBody (stackKinds p) = true
        exact hks
      · refine mu_mode_lt p _ rfl ?_
        rw [hm, ht]
        show modeRank .InBody (headEndHtml (.endTag tag :: rest)) <
          modeRank .AfterBody (headEndHtml (.endTag tag :: rest))
        simp [headEndHtml, isEndHtml, modeRank, hhtml]
      · right
        refine ⟨rfl, ?_⟩
        rw [hm]
        simp
  | eof =>
    left
    exact ⟨windowOf p, rfl⟩

theorem good_afterAfterBody (p : HtmlParser) (tok : HtmlToken) (rest : List HtmlToken)
    (hInv : ReachInv p = true) (ht : p.t = tok :: rest) (hm : p.mode = .AfterAfterBody) :
    StepGood p (stepAfterAfterBody p tok rest) := by
  obtain ⟨hO, hOT, hS⟩ := (ReachInv_eq p).mp hInv
  have hks : bodyStackOk (stackKinds p) = true := by
    rw [hm] at hS
    simpa [stackOk] using hS
  cases tok with
  | char c =>
    right
    refine ⟨_, rfl, hInv, ?_, ?_⟩
    · exact mu_consume p _ _ rest ht rfl
    · left; rw [ht]; simp
  | startTag tag sc attrs =>
    right
    refine ⟨_, rfl, ?_, ?_, ?_⟩
    · rw [ReachInv_eq]
      refine ⟨by simpa using hO, by intro h; simp at h, ?_⟩
      show stackOk .InBody (stackKinds p) = true
      exact hks
    · refine mu_mode_lt p _ rfl ?_
      rw [hm]
      show modeRank .InBody _ < modeRank .AfterAfterBody _
      cases headEndHtml p.t <;> simp [modeRank]
    · right
      refine ⟨rfl, ?_⟩
      rw [hm]
      simp
  | endTag tag =>
    right
    refine ⟨_, rfl, ?_, ?_, ?_⟩
    · rw [ReachInv_eq]
      refine ⟨by simpa using hO, by intro h; simp at h, ?_⟩
      show stackOk .InBody (stackKinds p) = true
      exact hks
    · refine mu_mode_lt p _ rfl ?_
      rw [hm]
      show modeRank .InBody _ < modeRank .AfterAfterBody _
      cases headEndHtml p.t <;> simp [modeRank]
    · right
      refine ⟨rfl, ?_⟩
      rw [hm]
      simp
  | eof =>
    left
    exact ⟨windowOf p, rfl⟩

theorem step_good (p : HtmlParser) (hInv : ReachInv p = true) : StepGood p (step p) := by
  match ht : p.t with
  | [] =>
    left
    exact ⟨windowOf p, by rw [step, ht]⟩
  | tok :: rest =>
    rw [step, ht]
    match hm : p.mode with
    | .Initial => exact good_initial p tok rest hInv ht hm
    | .BeforeHtml => exact good_beforeHtml p tok rest hInv ht hm
    | .BeforeHead => exact good_beforeHead p tok rest hInv ht hm
    | .InHead => exact good_inHead p tok rest hInv ht hm
    | .AfterHead => exact good_afterHead p tok rest hInv ht hm
    | .InBody => exact good_inBody p tok rest hInv ht hm
    | .Text => exact good_text p tok rest hInv ht hm
    | .AfterBody => exact good_afterBody p tok rest hInv ht hm
    | .AfterAfterBody => exact good_afterAfterBody p tok rest hInv ht hm

theorem ReachInv_init (ts : List HtmlToken) : ReachInv (initState ts) = true := rfl

theorem ReachInv_step (p p' : HtmlParser) (hInv : ReachInv p = true)
    (h : step p = .cont p') : ReachInv p' = true := by
  rcases step_good p hInv with ⟨w, heq⟩ | ⟨q, heq, hq, _, _⟩
  · rw [heq] at h; cases h
  · rw [heq] at h
    injection h with h2
    rw [← h2]
    exact hq

theorem mu_step (p p' : HtmlParser) (hInv : ReachInv p = true)
    (h : step p = .cont p') : mu p' < mu p := by
  rcases step_good p hInv with ⟨w, heq⟩ | ⟨q, heq, hq, hmu, _⟩
  · rw [heq] at h; cases h
  · rw [heq] at h
    injection h with h2
    rw [← h2]
    exact hmu

theorem step_not_panic (p : HtmlParser) (hInv : ReachInv p = true) : step p ≠ .panic := by
  rcases step_good p hInv with ⟨w, heq⟩ | ⟨q, heq, _, _, _⟩ <;> rw [heq] <;> intro h <;> cases h

theorem ReachInv_stepN (n : Nat) (p : HtmlParser) (hInv : ReachInv p = true) :
    ReachInv (stepN n p) = true := by
  induction n generalizing p with
  | zero => exact hInv
  | succ n ih =>
    rw [stepN]
    cases hstep : step p with
    | ret w => exact hInv
    | panic => exact hInv
    | cont p' => exact ih p' (ReachInv_step p p' hInv hstep)

theorem ReachInv_reachable (p : HtmlParser) (h : Reachable p) : ReachInv p = true := by
  obtain ⟨ts, n, hn⟩ := h
  rw [← hn]
  exact ReachInv_stepN n (initState ts) (ReachInv_init ts)

theorem run_total (n : Nat) (p : HtmlParser) (hInv : ReachInv p = true) (hmu : mu p < n) :
    ∃ w, run n p = some w := by
  induction n generalizing p with
  | zero => cases hmu
  | succ n ih =>
    rw [run]
    cases hstep : step p with
    | ret w => exact ⟨w, rfl⟩
    | panic => exact absurd hstep (step_not_panic p hInv)
    | cont p' =>
      refine ih p' (ReachInv_step p p' hInv hstep) ?_
      have h2 := mu_step p p' hInv hstep
      omega

theorem mu_init (ts : List HtmlToken) : mu (initState ts) = 9 * ts.length + 8 := rfl

theorem construction_tree_total (ts : List HtmlToken) : ∃ w, construction_tree ts = some w := by
  unfold construction_tree fuelBound
  refine run_total _ _ (ReachInv_init ts) ?_
  rw [mu_init]
  omega

theorem step_eq_dispatch (p : HtmlParser) (tok : HtmlToken) (rest : List HtmlToken)
    (ht : p.t = tok :: rest) :
    step p = (match p.mode with
      | .Initial => stepInitial p tok rest
      | .BeforeHtml => stepBeforeHtml p tok rest
      | .BeforeHead => stepBeforeHead p tok rest
      | .InHead => stepInHead p tok rest
      | .AfterHead => stepAfterHead p tok rest
      | .InBody => stepInBody p tok rest
      | .Text => stepText p tok rest
      | .AfterBody => stepAfterBody p tok rest
      | .AfterAfterBody => stepAfterAfterBody p tok rest) := by
  rw [step, ht]

theorem run_two_eof (p : HtmlParser) (h : p.t = [] ∨ p.t.head? = some .eof) :
    run 2 p = some (windowOf p) := by
  rcases h with h | h
  · rw [run, step, h]
  · obtain ⟨rest, ht⟩ : ∃ rest, p.t = HtmlToken.eof :: rest := by
      cases hT : p.t with
      | nil => rw [hT] at h; cases h
      | cons x r =>
        rw [hT] at h
        simp only [List.head?_cons, Option.some_inj] at h
        exact ⟨r, by rw [h]⟩
    cases hm : p.mode with
    | Initial =>
      have hstep1 : step p = .cont { p with mode := InsertionMode.BeforeHtml } := by
        rw [step_eq_dispatch p _ _ ht, hm]
        exact rfl
      rw [run, hstep1]
      show run 1 ({ p with mode := InsertionMode.BeforeHtml } : HtmlParser) = some (windowOf p)
      have htt : ({ p with mode := InsertionMode.BeforeHtml } : HtmlParser).t
          = HtmlToken.eof :: rest := ht
      have hstep2 : step ({ p with mode := InsertionMode.BeforeHtml } : HtmlParser)
          = .ret (windowOf p) := by
        rw [step_eq_dispatch _ _ _ htt]
        exact rfl
      rw [run, hstep2]
    | BeforeHtml => rw [run, step_eq_dispatch p _ _ ht, hm]; exact rfl
    | BeforeHead => rw [run, step_eq_dispatch p _ _ ht, hm]; exact rfl
    | InHead => rw [run, step_eq_dispatch p _ _ ht, hm]; exact rfl
    | AfterHead => rw [run, step_eq_dispatch p _ _ ht, hm]; exact rfl
    | InBody => rw [run, step_eq_dispatch p _ _ ht, hm]; exact rfl
    | Text => rw [run, step_eq_dispatch p _ _ ht, hm]; exact rfl
    | AfterBody => rw [run, step_eq_dispatch p _ _ ht, hm]; exact rfl
    | AfterAfterBody => rw [run, step_eq_dispatch p _ _ ht, hm]; exact rfl

/-- C2: for every finite input token stream `construction_tree` terminates;
every dispatch from an invariant state either consumes the current token or
changes the insertion mode, and the measure argument excludes any
non-consuming cycle. -/
theorem C2_construction_tree_terminates :
    (∀ ts : List HtmlToken, ∃ w, construction_tree ts = some w) ∧
    (∀ p p' : HtmlParser, ReachInv p = true → step p = .cont p' →
      p'.t.length < p.t.length ∨ (p'.t = p.t ∧ p'.mode ≠ p.mode)) := by
  constructor
  · exact construction_tree_total
  · intro p p' hInv hstep
    rcases step_good p hInv with ⟨w, heq⟩ | ⟨q, heq, _, _, hcp⟩
    · rw [heq] at hstep; cases hstep
    · rw [heq] at hstep
      injection hstep with h2
      rw [← h2]
      exact hcp

/-- Witness for C2 at a concrete dispatch: from the initial state on the
stream `['x']`, the `Initial` mode consumes the character. -/
theorem C2_witness :
    (({ initState [HtmlToken.char 'x'] with t := ([] : List HtmlToken) } : HtmlParser).t).length
        < ((initState [HtmlToken.char 'x']).t).length ∨
      (({ initState [HtmlToken.char 'x'] with t := ([] : List HtmlToken) } : HtmlParser).t
          = (initState [HtmlToken.char 'x']).t ∧
        ({ initState [HtmlToken.char 'x'] with t := ([] : List HtmlToken) } : HtmlParser).mode
          ≠ (initState [HtmlToken.char 'x']).mode) :=
  C2_construction_tree_terminates.2 (initState [HtmlToken.char 'x'])
    { initState [HtmlToken.char 'x'] with t := ([] : List HtmlToken) } rfl rfl

/-- C3: `construction_tree` is infallible: reaching Eof (or end of stream)
in any insertion mode makes the loop return the current Window, and on
every token stream the parser returns a Window, never an error. -/
theorem C3_infallible :
    (∀ p : HtmlParser, (p.t = [] ∨ p.t.head? = some HtmlToken.eof) →
      run 2 p = some (windowOf p)) ∧
    (∀ ts : List HtmlToken, ∃ w, construction_tree ts = some w) :=
  ⟨run_two_eof, construction_tree_total⟩

/-- Witness for C3: the one-token stream `[Eof]` returns the empty window. -/
theorem C3_witness : run 2 (initState [HtmlToken.eof]) = some (windowOf (initState [HtmlToken.eof])) :=
  C3_infallible.1 (initState [HtmlToken.eof]) (Or.inr rfl)

/-- C4 counterexample: in `Initial` mode the non-whitespace character `'x'`
is discarded with the tokenizer advanced and the mode left `Initial`; the
parser does not switch to `BeforeHtml` and does not reprocess, contrary to
the claim. -/
theorem C4_counterexample :
    resultMode (step (initState [HtmlToken.char 'x'])) = some InsertionMode.Initial ∧
    resultMode (step (initState [HtmlToken.char 'x'])) ≠ some InsertionMode.BeforeHtml ∧
    resultTokens (step (initState [HtmlToken.char 'x'])) = some [] ∧
    ¬('x' = ' ' ∨ 'x' = '\n') := by
  decide

/-- C4 amended: in `Initial` mode every Char token (whitespace or not) is
discarded with the tokenizer advanced; every non-Char token switches the
mode to `BeforeHtml` and is reprocessed without advancing. -/
theorem C4_amended (p : HtmlParser) (tok : HtmlToken) (rest : List HtmlToken)
    (hm : p.mode = .Initial) (ht : p.t = tok :: rest) :
    (∀ c, tok = .char c → step p = .cont { p with t := rest }) ∧
    ((∀ c, tok ≠ .char c) → step p = .cont { p with mode := .BeforeHtml }) := by
  have hd : step p = stepInitial p tok rest := by
    rw [step_eq_dispatch p tok rest ht, hm]
  constructor
  · intro c hc
    rw [hd, hc]
    exact rfl
  · intro hnc
    cases tok with
    | char c => exact absurd rfl (hnc c)
    | startTag tag sc attrs => rw [hd]; exact rfl
    | endTag tag => rw [hd]; exact rfl
    | eof => rw [hd]; exact rfl

/-- Witness for C4 amended: both branches at concrete inputs. -/
theorem C4_witness :
    step (initState [HtmlToken.char 'x']) = .cont { initState [HtmlToken.char 'x'] with t := [] } ∧
    step (initState [HtmlToken.eof]) = .cont { initState [HtmlToken.eof] with mode := .BeforeHtml } :=
  ⟨(C4_amended (initState [HtmlToken.char 'x']) (HtmlToken.char 'x') [] rfl rfl).1 'x' rfl,
   (C4_amended (initState [HtmlToken.eof]) HtmlToken.eof [] rfl rfl).2
     (fun _ h => HtmlToken.noConfusion h)⟩

/-- C9: in `AfterBody` and `AfterAfterBody` modes every Char token is
consumed with the DOM, the stack of open elements, the insertion mode and
the saved mode all unchanged: only the token stream advances. -/
theorem C9_afterBody_chars_discarded (p : HtmlParser) (c : Char) (rest : List HtmlToken)
    (hm : p.mode = .AfterBody ∨ p.mode = .AfterAfterBody)
    (ht : p.t = HtmlToken.char c :: rest) :
    step p = .cont { p with t := rest } := by
  have hd : step p = (match p.mode with
      | .Initial => stepInitial p (.char c) rest
      | .BeforeHtml => stepBeforeHtml p (.char c) rest
      | .BeforeHead => stepBeforeHead p (.char c) rest
      | .InHead => stepInHead p (.char c) rest
      | .AfterHead => stepAfterHead p (.char c) rest
      | .InBody => stepInBody p (.char c) rest
      | .Text => stepText p (.char c) rest
      | .AfterBody => stepAfterBody p (.char c) rest
      | .AfterAfterBody => stepAfterAfterBody p (.char c) rest) :=
    step_eq_dispatch p (.char c) rest ht
  rcases hm with hm | hm
  · rw [hd]
    conv_lhs => rw [hm]
    exact rfl
  · rw [hd]
    conv_lhs => rw [hm]
    exact rfl

/-- Witness for C9: a stray character after `</body>` is dropped. -/
theorem C9_witness :
    step ({ initState [HtmlToken.char 'z'] with mode := .AfterBody } : HtmlParser)
      = .cont { ({ initState [HtmlToken.char 'z'] with mode := .AfterBody } : HtmlParser) with t := [] } :=
  C9_afterBody_chars_discarded ({ initState [HtmlToken.char 'z'] with mode := .AfterBody }) 'z' []
    (Or.inl rfl) rfl

/-- C10: in every reachable parser state `original_insertion_mode` is either
`Initial` (its construction value) or `InHead` (the only mode that assigns
it), and whenever the mode is `Text` the saved mode is `InHead`, so leaving
`Text` always returns to `InHead`. -/
theorem C10_original_insertion_mode_invariant (p : HtmlParser) (h : Reachable p) :
    (p.original_insertion_mode = .Initial ∨ p.original_insertion_mode = .InHead) ∧
    (p.mode = .Text → p.original_insertion_mode = .InHead) := by
  have hInv := ReachInv_reachable p h
  obtain ⟨hO, hOT, _⟩ := (ReachInv_eq p).mp hInv
  exact ⟨hO, hOT⟩

/-- Witness for C10 at a reachable `Text`-mode state: after
`<html><head><style>` the parser is in `Text` mode and the saved mode is
`InHead`. -/
theorem C10_witness :
    (stepN 4 (initState [HtmlToken.startTag "html" false [], HtmlToken.startTag "head" false [],
      HtmlToken.startTag "style" false []])).mode = InsertionMode.Text ∧
    (stepN 4 (initState [HtmlToken.startTag "html" false [], HtmlToken.startTag "head" false [],
      HtmlToken.startTag "style" false []])).original_insertion_mode = InsertionMode.InHead :=
  ⟨by decide,
   (C10_original_insertion_mode_invariant _
     ⟨[HtmlToken.startTag "html" false [], HtmlToken.startTag "head" false [],
       HtmlToken.startTag "style" false []], 4, rfl⟩).2 (by decide)⟩

/-- C1 (evidence for the enum/driver mismatch): the source's declared
`InsertionMode` enum has exactly seven variants and contains neither
`BeforeHead` nor `Text`, while the driver itself starts in `Initial` and
reaches both missing modes, so the declaration contradicts the driver
loop. -/
theorem C1_insertion_mode_enum :
    declaredInsertionModes.length = 7 ∧
    InsertionMode.BeforeHead ∉ declaredInsertionModes ∧
    InsertionMode.Text ∉ declaredInsertionModes ∧
    (initState []).mode = InsertionMode.Initial ∧
    (stepN 2 (initState [HtmlToken.startTag "html" false []])).mode = InsertionMode.BeforeHead ∧
    (stepN 4 (initState [HtmlToken.startTag "html" false [], HtmlToken.startTag "head" false [],
      HtmlToken.startTag "style" false []])).mode = InsertionMode.Text := by
  decide

/-- C6 counterexample: `style` is a StartTag whose name maps to a known
ElementKind, yet in `InHead` mode the parser inserts it, consumes the
token and enters `Text` mode instead of popping the head, switching to
`AfterHead` and reprocessing as the claim states. -/
theorem C6_counterexample :
    ElementKind.from_str "style" = some ElementKind.style ∧
    (stepN 3 (initState [HtmlToken.startTag "html" false [], HtmlToken.startTag "head" false [],
      HtmlToken.startTag "style" false []])).mode = InsertionMode.InHead ∧
    resultMode (step (stepN 3 (initState [HtmlToken.startTag "html" false [],
      HtmlToken.startTag "head" false [], HtmlToken.startTag "style" false []])))
      = some InsertionMode.Text ∧
    resultMode (step (stepN 3 (initState [HtmlToken.startTag "html" false [],
      HtmlToken.startTag "head" false [], HtmlToken.startTag "style" false []])))
      ≠ some InsertionMode.AfterHead ∧
    resultTokens (step (stepN 3 (initState [HtmlToken.startTag "html" false [],
      HtmlToken.startTag "head" false [], HtmlToken.startTag "style" false []])))
      = some [] := by
  decide

/-- C6 amended: in `InHead` mode, a StartTag `body`, or any StartTag other
than `style` and `script` whose name maps to a known ElementKind, pops the
stack until Head is removed, switches to `AfterHead` and reprocesses the
same token without advancing; a StartTag whose ElementKind lookup fails is
ignored and the tokenizer advanced. -/
theorem C6_amended (p : HtmlParser) (tag : String) (sc : Bool)
    (attrs : List (String × String)) (rest : List HtmlToken)
    (hm : p.mode = .InHead) (ht : p.t = .startTag tag sc attrs :: rest)
    (hs : tag ≠ "style") (hsc : tag ≠ "script") :
    (tag = "body" ∨ (ElementKind.from_str tag).isSome = true →
      step p = .cont { pop_until p .head with mode := .AfterHead }) ∧
    (tag ≠ "body" → ElementKind.from_str tag = none → step p = .cont { p with t := rest }) := by
  have hd : step p = stepInHead p (.startTag tag sc attrs) rest := by
    rw [step_eq_dispatch p _ _ ht]
    conv_lhs => rw [hm]
  rw [stepInHead.eq_def] at hd
  dsimp only at hd
  have hraw : ¬(tag = "style" ∨ tag = "script") := fun h => h.elim hs hsc
  rw [if_neg hraw] at hd
  constructor
  · intro h
    by_cases hb : tag = "body"
    · rw [if_pos hb] at hd
      exact hd
    · rw [if_neg hb] at hd
      rcases h with h | h
      · exact absurd h hb
      · obtain ⟨k, hk⟩ := Option.isSome_iff_exists.mp h
        rw [hk] at hd
        exact hd
  · intro hb hnone
    rw [if_neg hb, hnone] at hd
    exact hd

/-- Witness for C6 amended: a `body` start tag inside `InHead`. -/
theorem C6_witness :
    step (⟨[], .InHead, .Initial, [], [HtmlToken.startTag "body" false []]⟩ : HtmlParser)
      = .cont { pop_until (⟨[], .InHead, .Initial, [], [HtmlToken.startTag "body" false []]⟩ : HtmlParser) .head
          with mode := .AfterHead } :=
  (C6_amended (⟨[], .InHead, .Initial, [], [HtmlToken.startTag "body" false []]⟩ : HtmlParser)
    "body" false [] [] rfl rfl (by decide) (by decide)).1 (Or.inl rfl)

/-- C5: in `InBody` mode on an `html` end tag in any reachable state, if
the current node is a Body element the parser pops Body and Html (so the
asserted `pop_current_node(Html)` succeeds, leaving an empty stack),
switches to `AfterBody` and keeps the token; otherwise it just advances the
tokenizer; the assertion can never panic. -/
theorem C5_inBody_end_html (p : HtmlParser) (rest : List HtmlToken)
    (hr : Reachable p) (hm : p.mode = .InBody)
    (ht : p.t = HtmlToken.endTag "html" :: rest) :
    (topKind p = some ElementKind.body →
      ∃ p', step p = .cont p' ∧ p'.mode = .AfterBody ∧
        p'.stack_of_open_elements = [] ∧ p'.t = p.t) ∧
    (¬(topKind p = some ElementKind.body) → step p = .cont { p with t := rest }) ∧
    step p ≠ .panic := by
  have hInv := ReachInv_reachable p hr
  obtain ⟨hO, hOT, hS⟩ := (ReachInv_eq p).mp hInv
  have hks : bodyStackOk (stackKinds p) = true := by
    rw [hm] at hS
    simpa [stackOk] using hS
  have hd : step p = stepInBody p (.endTag "html") rest := by
    rw [step_eq_dispatch p _ _ ht]
    conv_lhs => rw [hm]
  rw [stepInBody.eq_def] at hd
  dsimp only at hd
  rw [if_neg (by decide : ¬(("html" : String) = "body")),
    if_pos (rfl : ("html" : String) = "html")] at hd
  refine ⟨?_, ?_, ?_⟩
  · intro htop
    have htop' : (stackKinds p).head? = some ElementKind.body := htop
    obtain ⟨tl, hsk⟩ : ∃ tl, stackKinds p = ElementKind.body :: tl := by
      cases hskc : stackKinds p with
      | nil => rw [hskc] at htop'; cases htop'
      | cons x tl =>
        rw [hskc] at htop'
        simp only [List.head?_cons, Option.some_inj] at htop'
        exact ⟨tl, by rw [htop']⟩
    have htl : tl = [ElementKind.html] := by
      rw [hsk, bodyStackOk] at hks
      rw [if_neg (by decide : ¬(isContentKind ElementKind.body = true))] at hks
      simp only [Bool.or_eq_true, Bool.and_eq_true, decide_eq_true_eq] at hks
      rcases hks with h1 | h2
      · exact h1.2
      · cases h2.1
    have hq2 : (pop_current_node p ElementKind.body).2 = true := by
      rw [pop_current_node_snd, htop']
      simp
    have hq1k : stackKinds (pop_current_node p ElementKind.body).1 = [ElementKind.html] := by
      rw [pop_current_node_kinds, if_pos htop', hsk, htl]
      rfl
    have hr2 : (pop_current_node { (pop_current_node p ElementKind.body).1
        with mode := InsertionMode.AfterBody } ElementKind.html).2 = true := by
      rw [pop_current_node_snd]
      have hx : stackKinds { (pop_current_node p ElementKind.body).1
          with mode := InsertionMode.AfterBody } = [ElementKind.html] := by
        rw [stackKinds_set_mode, hq1k]
      rw [hx]
      simp
    rw [if_pos hq2, if_pos hr2] at hd
    refine ⟨_, hd, ?_, ?_, ?_⟩
    · rw [pop_current_node_mode]
    · have hkfin : stackKinds ((pop_current_node { (pop_current_node p ElementKind.body).1
          with mode := InsertionMode.AfterBody } ElementKind.html).1) = [] := by
        rw [pop_current_node_kinds]
        rw [stackKinds_set_mode, hq1k]
        rfl
      have := List.map_eq_nil_iff.mp hkfin
      exact this
    · simp
  · intro htop
    have hq2 : (pop_current_node p ElementKind.body).2 = false := by
      rw [pop_current_node_snd]
      simp only [decide_eq_false_iff_not]
      exact htop
    rw [if_neg (by rw [hq2]; simp)] at hd
    exact hd
  · exact step_not_panic p hInv

/-- Witness for C5: after `<html><head></head><body>` the `</html>` end tag
finds Body as current node, pops Body and Html and moves to `AfterBody`. -/
theorem C5_witness :
    ∃ p', step (stepN 5 (initState [HtmlToken.startTag "html" false [],
        HtmlToken.startTag "head" false [], HtmlToken.endTag "head",
        HtmlToken.startTag "body" false [], HtmlToken.endTag "html"])) = .cont p' ∧
      p'.mode = .AfterBody ∧ p'.stack_of_open_elements = [] ∧
      p'.t = (stepN 5 (initState [HtmlToken.startTag "html" false [],
        HtmlToken.startTag "head" false [], HtmlToken.endTag "head",
        HtmlToken.startTag "body" false [], HtmlToken.endTag "html"])).t :=
  (C5_inBody_end_html _ []
    ⟨[HtmlToken.startTag "html" false [], HtmlToken.startTag "head" false [],
      HtmlToken.endTag "head", HtmlToken.startTag "body" false [], HtmlToken.endTag "html"], 5, rfl⟩
    (by decide) (by decide)).1 (by decide)

/-- C7: the `BeforeHtml` dispatch: space and newline characters are
discarded; StartTag `html` creates and pushes the html element with its
attributes, attaches it under the Document, advances and moves to
`BeforeHead`; Eof returns the Window; anything else synthesizes an html
element with empty attributes and reprocesses the same token in
`BeforeHead`. -/
theorem C7_beforeHtml (p : HtmlParser) (tok : HtmlToken) (rest : List HtmlToken)
    (hm : p.mode = .BeforeHtml) (ht : p.t = tok :: rest)
    (hstack : p.stack_of_open_elements = []) :
    (∀ c, tok = .char c → (c = ' ' ∨ c = '\n') → step p = .cont { p with t := rest }) ∧
    (∀ sc attrs, tok = .startTag "html" sc attrs →
      step p = .cont { p with stack_of_open_elements := [⟨.html, attrs, []⟩], mode := .BeforeHead, t := rest } ∧
      windowOf { p with stack_of_open_elements := [⟨.html, attrs, []⟩], mode := .BeforeHead, t := rest } = ⟨p.doc_children ++ [.element .html attrs []]⟩) ∧
    (tok = .eof → step p = .ret (windowOf p)) ∧
    (∀ c, tok = .char c → ¬(c = ' ' ∨ c = '\n') →
      step p = .cont { p with stack_of_open_elements := [⟨.html, [], []⟩], mode := .BeforeHead }) ∧
    (∀ tag sc attrs, tok = .startTag tag sc attrs → tag ≠ "html" →
      step p = .cont { p with stack_of_open_elements := [⟨.html, [], []⟩], mode := .BeforeHead }) ∧
    (∀ tag, tok = .endTag tag →
      step p = .cont { p with stack_of_open_elements := [⟨.html, [], []⟩], mode := .BeforeHead }) := by
  have hd : step p = stepBeforeHtml p tok rest := by
    rw [step_eq_dispatch p tok rest ht]
    conv_lhs => rw [hm]
  have hins : ∀ attrs : List (String × String),
      insert_element p "html" attrs = { p with stack_of_open_elements := [⟨.html, attrs, []⟩] } := by
    intro attrs
    unfold insert_element
    rw [from_str_html]
    dsimp only
    rw [hstack]
  refine ⟨?_, ?_, ?_, ?_, ?_, ?_⟩
  · intro c hc hws
    subst hc
    rw [hd, stepBeforeHtml.eq_def]
    dsimp only
    rw [if_pos hws]
  · intro sc attrs hc
    subst hc
    constructor
    · rw [hd, stepBeforeHtml.eq_def]
      dsimp only
      rw [if_pos (rfl : ("html" : String) = "html"), hins attrs]
    · exact rfl
  · intro hc
    subst hc
    rw [hd]
    exact rfl
  · intro c hc hnws
    subst hc
    rw [hd, stepBeforeHtml.eq_def]
    dsimp only
    rw [if_neg hnws, hins []]
  · intro tag sc attrs hc hneq
    subst hc
    rw [hd, stepBeforeHtml.eq_def]
    dsimp only
    rw [if_neg hneq, hins []]
  · intro tag hc
    subst hc
    rw [hd, stepBeforeHtml.eq_def]
    dsimp only
    rw [hins []]

/-- Witness for C7: a start tag with an attribute creates the html element
under the Document with its attribute list. -/
theorem C7_witness :
    step (stepN 1 (initState [HtmlToken.startTag "html" false [("lang", "en")]]))
      = .cont { (stepN 1 (initState [HtmlToken.startTag "html" false [("lang", "en")]])) with stack_of_open_elements := [⟨.html, [("lang", "en")], []⟩], mode := .BeforeHead, t := [] } ∧
    windowOf { (stepN 1 (initState [HtmlToken.startTag "html" false [("lang", "en")]])) with stack_of_open_elements := [⟨.html, [("lang", "en")], []⟩], mode := .BeforeHead, t := [] } = ⟨(stepN 1 (initState [HtmlToken.startTag "html" false [("lang", "en")]])).doc_children ++ [.element .html [("lang", "en")] []]⟩ :=
  (C7_beforeHtml (stepN 1 (initState [HtmlToken.startTag "html" false [("lang", "en")]]))
    (HtmlToken.startTag "html" false [("lang", "en")]) [] rfl rfl rfl).2.1 false [("lang", "en")] rfl

/-- C8: the `Text` dispatch: a character is appended to the current node
and consumed; EndTag `style` (resp. `script`) pops until Style
(resp. Script), restores the saved insertion mode and advances; Eof
returns the Window; any other token restores the saved mode without
advancing the tokenizer. -/
theorem C8_text_mode (p : HtmlParser) (tok : HtmlToken) (rest : List HtmlToken)
    (hm : p.mode = .Text) (ht : p.t = tok :: rest) :
    (∀ c, tok = .char c → step p = .cont { insert_char p c with t := rest }) ∧
    (tok = .endTag "style" →
      step p = .cont { pop_until p .style with mode := p.original_insertion_mode, t := rest }) ∧
    (tok = .endTag "script" →
      step p = .cont { pop_until p .script with mode := p.original_insertion_mode, t := rest }) ∧
    (tok = .eof → step p = .ret (windowOf p)) ∧
    (∀ tag sc attrs, tok = .startTag tag sc attrs →
      step p = .cont { p with mode := p.original_insertion_mode }) ∧
    (∀ tag, tok = .endTag tag → tag ≠ "style" → tag ≠ "script" →
      step p = .cont { p with mode := p.original_insertion_mode }) := by
  have hd : step p = stepText p tok rest := by
    rw [step_eq_dispatch p tok rest ht]
    conv_lhs => rw [hm]
  refine ⟨?_, ?_, ?_, ?_, ?_, ?_⟩
  · intro c hc
    subst hc
    rw [hd]
    exact rfl
  · intro hc
    subst hc
    rw [hd]
    exact rfl
  · intro hc
    subst hc
    rw [hd]
    exact rfl
  · intro hc
    subst hc
    rw [hd]
    exact rfl
  · intro tag sc attrs hc
    subst hc
    rw [hd]
    exact rfl
  · intro tag hc hs hsc
    subst hc
    rw [hd, stepText.eq_def]
    dsimp only
    rw [if_neg hs, if_neg hsc]

/-- Witness for C8: a character inside `<style>` raw text is appended to
the open style element. -/
theorem C8_witness :
    step (⟨[], .Text, .InHead, [⟨.style, [], []⟩], [HtmlToken.char 'x']⟩ : HtmlParser)
      = .cont { insert_char (⟨[], .Text, .InHead, [⟨.style, [], []⟩], [HtmlToken.char 'x']⟩ : HtmlParser) 'x'
          with t := [] } :=
  (C8_text_mode (⟨[], .Text, .InHead, [⟨.style, [], []⟩], [HtmlToken.char 'x']⟩ : HtmlParser)
    (HtmlToken.char 'x') [] rfl rfl).1 'x' rfl
